import Mathlib

/-!
# RingBuffer (src/ringbuffer.h): a shallow embedding and its verification

The C++ class `RingBuffer<T>` keeps two `unsigned` cursors and a `std::vector<T>`.
The embedding fixes the usual LP64 widths: `unsigned` is 32 bits, `size_t` is 64 bits.
Machine integers are natural numbers reduced explicitly modulo `2^32` or `2^64`.

* A failed `assert` is `Fault.assertion`.
* Indexing the vector (or a caller array) outside its bounds is undefined behaviour in
  C++; the embedding reports it as `Fault.outOfRange` instead of inventing a value.
* A loop whose `unsigned` counter can never reach its `size_t` bound never returns;
  it is reported as `Fault.diverges`.

Pointers handed out by `wdata()` / `rdata()` are kept as the slot number they point to,
and a store through such a pointer is a bounds-checked update of the backing store.

The file has three parts: the embedding and the reachability relation, the
representation invariant with its preservation lemmas, and one theorem per claim.
-/

set_option autoImplicit false

/-- Number of values of the C++ type `unsigned`. -/
def UINT_SPAN : Nat := 2 ^ 32

/-- Number of values of the C++ type `size_t`. -/
def SIZE_SPAN : Nat := 2 ^ 64

/-- The ways a call can fail to return normally. -/
inductive Fault where
  | assertion
  | outOfRange
  | diverges
  deriving DecidableEq, Repr

/-- Mirror of the data members of `RingBuffer<T>` (ringbuffer.h:7-9). -/
structure RingBuffer (α : Type) where
  rindex_ : Nat
  windex_ : Nat
  buf_ : List α
  deriving DecidableEq, Repr

/-- Mirror of `std::vector<T>::resize(n)`: keep the first `n` elements, pad with `T()`. -/
def vectorResize {α : Type} [Inhabited α] (v : List α) (n : Nat) : List α :=
  v.take n ++ List.replicate (n - v.length) default

namespace RingBuffer

variable {α : Type}

/-- Mirror of `mask` (ringbuffer.h:11): `idx & (buf_.size() - 1)`, computed in `size_t`
and returned as `unsigned`. -/
def mask (rb : RingBuffer α) (idx : Nat) : Nat :=
  (idx &&& ((rb.buf_.length + SIZE_SPAN - 1) % SIZE_SPAN)) % UINT_SPAN

/-- Mirror of `isPowerOfTwo` (ringbuffer.h:12) on an `unsigned` argument:
`(x & (~x + 1)) == x`. -/
def isPowerOfTwo (x : Nat) : Bool :=
  (x &&& (((UINT_SPAN - 1 - x) + 1) % UINT_SPAN)) == x

/-- Mirror of `capacity(size_t)` (ringbuffer.h:22-25). The `size_t` argument is converted
to `unsigned` for the call of `isPowerOfTwo`; the resize uses the full value. -/
def capacity [Inhabited α] (rb : RingBuffer α) (aCapacity : Nat) :
    Except Fault (RingBuffer α) :=
  if isPowerOfTwo (aCapacity % UINT_SPAN) then
    .ok { rb with buf_ := vectorResize rb.buf_ aCapacity }
  else
    .error .assertion

/-- Mirror of the constructor `RingBuffer(size_t aCapacity)` (ringbuffer.h:17-19). -/
def new [Inhabited α] (aCapacity : Nat) : Except Fault (RingBuffer α) :=
  capacity { rindex_ := 0, windex_ := 0, buf_ := [] } aCapacity

/-- Mirror of `empty()` (ringbuffer.h:26). -/
def empty (rb : RingBuffer α) : Bool := rb.rindex_ == rb.windex_

/-- Mirror of `size()` (ringbuffer.h:29): the `unsigned` difference `windex_ - rindex_`. -/
def size (rb : RingBuffer α) : Nat := (rb.windex_ + UINT_SPAN - rb.rindex_) % UINT_SPAN

/-- Mirror of `full()` (ringbuffer.h:27). -/
def full (rb : RingBuffer α) : Bool := rb.size == rb.buf_.length

/-- Mirror of `available()` (ringbuffer.h:30): `buf_.size() - size()` in `size_t`. -/
def available (rb : RingBuffer α) : Nat :=
  (rb.buf_.length + SIZE_SPAN - rb.size) % SIZE_SPAN

/-- Mirror of `continuousSize()` (ringbuffer.h:32-36). -/
def continuousSize (rb : RingBuffer α) : Nat :=
  let sz := rb.size
  let cont := (rb.buf_.length + SIZE_SPAN - rb.mask rb.rindex_) % SIZE_SPAN
  if sz < cont then sz else cont

/-- Mirror of `continuousAvailable()` (ringbuffer.h:37-41). -/
def continuousAvailable (rb : RingBuffer α) : Nat :=
  let avil := rb.available
  let cont := (rb.buf_.length + SIZE_SPAN - rb.mask rb.windex_) % SIZE_SPAN
  if avil < cont then avil else cont

/-- Mirror of `push` (ringbuffer.h:43-46). -/
def push (rb : RingBuffer α) (val : α) : Except Fault (RingBuffer α) :=
  if rb.full then .error .assertion
  else
    let slot := rb.mask rb.windex_
    if slot < rb.buf_.length then
      .ok { rindex_ := rb.rindex_
            windex_ := (rb.windex_ + 1) % UINT_SPAN
            buf_ := rb.buf_.set slot val }
    else .error .outOfRange

/-- Mirror of `pop` (ringbuffer.h:48-51). -/
def pop (rb : RingBuffer α) : Except Fault (α × RingBuffer α) :=
  if rb.empty then .error .assertion
  else
    match rb.buf_[rb.mask rb.rindex_]? with
    | some v => .ok (v, { rb with rindex_ := (rb.rindex_ + 1) % UINT_SPAN })
    | none => .error .outOfRange

/-- Mirror of `discard` (ringbuffer.h:53). -/
def discard (rb : RingBuffer α) : RingBuffer α := { rb with rindex_ := rb.windex_ }

/-- Mirror of `wdata` (ringbuffer.h:55): the pointer `&buf_[mask(windex_)]`, kept as the
slot number it points to. -/
def wdata (rb : RingBuffer α) : Nat := rb.mask rb.windex_

/-- Mirror of `rdata` (ringbuffer.h:56): the pointer `&buf_[mask(rindex_)]`, kept as the
slot number it points to. -/
def rdata (rb : RingBuffer α) : Nat := rb.mask rb.rindex_

/-- Mirror of `wcommit` (ringbuffer.h:57): `windex_ += sz` with `sz` a `size_t`. -/
def wcommit (rb : RingBuffer α) (sz : Nat) : RingBuffer α :=
  { rb with windex_ := (rb.windex_ + sz) % UINT_SPAN }

/-- Mirror of `rcommit` (ringbuffer.h:58): `rindex_ += sz` with `sz` a `size_t`. -/
def rcommit (rb : RingBuffer α) (sz : Nat) : RingBuffer α :=
  { rb with rindex_ := (rb.rindex_ + sz) % UINT_SPAN }

/-- Mirror of `rindex` (ringbuffer.h:61). -/
def rindex (rb : RingBuffer α) : Nat := rb.rindex_

/-- Mirror of `peek` (ringbuffer.h:62-65). The method is `const`: it has no state to return. -/
def peek (rb : RingBuffer α) (idx : Nat) : Except Fault α :=
  if rb.empty then .error .assertion
  else
    match rb.buf_[rb.mask idx]? with
    | some v => .ok v
    | none => .error .outOfRange

/-- The loop of `write` (ringbuffer.h:70-72) with `todo` iterations left and counter `i`. -/
def writeLoop (buf : List α) : Nat → Nat → RingBuffer α → Except Fault (RingBuffer α)
  | 0, _, rb => .ok rb
  | todo + 1, i, rb =>
    match buf[i]? with
    | none => .error .outOfRange
    | some v =>
      let slot := rb.mask rb.windex_
      if slot < rb.buf_.length then
        writeLoop buf todo ((i + 1) % UINT_SPAN)
          { rindex_ := rb.rindex_
            windex_ := (rb.windex_ + 1) % UINT_SPAN
            buf_ := rb.buf_.set slot v }
      else .error .outOfRange

/-- Mirror of `write` (ringbuffer.h:68-74). The caller array is the list `buf`.
The counter `i` is `unsigned` and `sz` is `size_t`: for `sz >= 2^32` the test `i < sz`
never fails, so the loop does not end. -/
def write (rb : RingBuffer α) (buf : List α) (sz : Nat) :
    Except Fault (Bool × RingBuffer α) :=
  if rb.available < sz then .ok (false, rb)
  else if UINT_SPAN ≤ sz then .error .diverges
  else
    match writeLoop buf sz 0 rb with
    | .ok rb1 => .ok (true, rb1)
    | .error f => .error f

/-- The loop of `read` (ringbuffer.h:78-80) with `todo` iterations left and counter `i`;
`out` is the caller array. -/
def readLoop : Nat → Nat → List α → RingBuffer α → Except Fault (List α × RingBuffer α)
  | 0, _, out, rb => .ok (out, rb)
  | todo + 1, i, out, rb =>
    match rb.buf_[rb.mask rb.rindex_]? with
    | none => .error .outOfRange
    | some v =>
      if i < out.length then
        readLoop todo ((i + 1) % UINT_SPAN) (out.set i v)
          { rb with rindex_ := (rb.rindex_ + 1) % UINT_SPAN }
      else .error .outOfRange

/-- Mirror of `read` (ringbuffer.h:76-82). The caller array `out` is passed in and the
updated array is returned next to the flag and the buffer. -/
def read (rb : RingBuffer α) (out : List α) (sz : Nat) :
    Except Fault (Bool × List α × RingBuffer α) :=
  if rb.size < sz then .ok (false, out, rb)
  else if UINT_SPAN ≤ sz then .error .diverges
  else
    match readLoop sz 0 out rb with
    | .ok (out1, rb1) => .ok (true, out1, rb1)
    | .error f => .error f

/-- A store `p[k] = v` through a pointer `p` obtained from `wdata()`. -/
def store (rb : RingBuffer α) (p k : Nat) (v : α) : Except Fault (RingBuffer α) :=
  if p + k < rb.buf_.length then .ok { rb with buf_ := rb.buf_.set (p + k) v }
  else .error .outOfRange

/-- The stores `p[k] = xs[0]`, `p[k+1] = xs[1]`, ... through a pointer `p`. -/
def storeAll (p : Nat) : List α → Nat → RingBuffer α → Except Fault (RingBuffer α)
  | [], _, rb => .ok rb
  | x :: xs, k, rb =>
    match rb.store p k x with
    | .ok rb1 => storeAll p xs (k + 1) rb1
    | .error f => .error f

/-- Call `pop()` `n` times and collect the returned values in order. -/
def popN : Nat → RingBuffer α → Except Fault (List α × RingBuffer α)
  | 0, rb => .ok ([], rb)
  | n + 1, rb =>
    match rb.pop with
    | .error f => .error f
    | .ok (v, rb1) =>
      match popN n rb1 with
      | .error f => .error f
      | .ok (vs, rb2) => .ok (v :: vs, rb2)

end RingBuffer

/-- A call of `push(v)` or of `pop()`. -/
inductive Call (α : Type) where
  | push (v : α)
  | pop
  deriving DecidableEq, Repr

/-- Run a sequence of `push`/`pop` calls on the buffer and collect, in order, the values
the `pop` calls return. The first fault ends the run. -/
def runCalls {α : Type} : RingBuffer α → List (Call α) → Except Fault (List α × RingBuffer α)
  | rb, [] => .ok ([], rb)
  | rb, .push v :: cs =>
    match rb.push v with
    | .error f => .error f
    | .ok rb1 => runCalls rb1 cs
  | rb, .pop :: cs =>
    match rb.pop with
    | .error f => .error f
    | .ok (v, rb1) =>
      match runCalls rb1 cs with
      | .error f => .error f
      | .ok (vs, rb2) => .ok (v :: vs, rb2)

/-- The reference FIFO queue run on the same calls: `push` appends to the list, `pop`
removes the head; the result is the list of values the pops return. -/
def fifoCalls {α : Type} : List α → List (Call α) → List α
  | _, [] => []
  | q, .push v :: cs => fifoCalls (q ++ [v]) cs
  | q, .pop :: cs => q.head?.toList ++ fifoCalls q.tail cs

/-- No `push` is issued while `full()` and no `pop` while `empty()`, checked on the states
the buffer runs through. A call that faults ends the run, so nothing is asked of the calls
after it. -/
def admissible {α : Type} : RingBuffer α → List (Call α) → Bool
  | _, [] => true
  | rb, .push v :: cs =>
    !rb.full &&
      (match rb.push v with
       | .error _ => true
       | .ok rb1 => admissible rb1 cs)
  | rb, .pop :: cs =>
    !rb.empty &&
      (match rb.pop with
       | .error _ => true
       | .ok (_, rb1) => admissible rb1 cs)

/-- The content of the reference FIFO queue after the calls. -/
def fifoState {α : Type} : List α → List (Call α) → List α
  | q, [] => q
  | q, .push v :: cs => fifoState (q ++ [v]) cs
  | q, .pop :: cs => fifoState q.tail cs

/-- A call of `discard()`, `write(buf, n)` or `read(out, n)`. -/
inductive BulkCall (α : Type) where
  | discard
  | write (buf : List α) (n : Nat)
  | read (out : List α) (n : Nat)

/-- Run a sequence of `discard`/`write`/`read` calls, whatever they return. -/
def runBulk {α : Type} : RingBuffer α → List (BulkCall α) → Except Fault (RingBuffer α)
  | rb, [] => .ok rb
  | rb, .discard :: cs => runBulk rb.discard cs
  | rb, .write buf n :: cs =>
    match rb.write buf n with
    | .error f => .error f
    | .ok (_, rb1) => runBulk rb1 cs
  | rb, .read out n :: cs =>
    match rb.read out n with
    | .error f => .error f
    | .ok (_, _, rb1) => runBulk rb1 cs

/-- Capacities the `unsigned` cursors can serve: zero, or a power of two up to `2^31`. -/
def SupportedCapacity (c : Nat) : Prop := c = 0 ∨ ∃ k, k ≤ 31 ∧ c = 2 ^ k

/-- The states reachable from `RingBuffer(c)` through calls made within their stated
preconditions, each paired with the content `q` of a reference FIFO queue (oldest first)
that is updated by list append and removal at the head.
`wstore` is a store through the pointer `wdata()` inside the borrowed free region;
`wcommit` publishes the first `n` slots of that region. -/
inductive Reach {α : Type} [Inhabited α] (c : Nat) : RingBuffer α → List α → Prop
  | init {rb : RingBuffer α} : RingBuffer.new c = .ok rb → Reach c rb []
  | push {rb rb1 : RingBuffer α} {q : List α} (v : α) :
      Reach c rb q → rb.push v = .ok rb1 → Reach c rb1 (q ++ [v])
  | pop {rb rb1 : RingBuffer α} {q : List α} (v : α) :
      Reach c rb q → rb.pop = .ok (v, rb1) → Reach c rb1 q.tail
  | discard {rb : RingBuffer α} {q : List α} :
      Reach c rb q → Reach c rb.discard []
  | write {rb rb1 : RingBuffer α} {q : List α} (buf : List α) (n : Nat) :
      Reach c rb q → rb.write buf n = .ok (true, rb1) → Reach c rb1 (q ++ buf.take n)
  | read {rb rb1 : RingBuffer α} {q : List α} (out out1 : List α) (n : Nat) :
      Reach c rb q → rb.read out n = .ok (true, out1, rb1) → Reach c rb1 (q.drop n)
  | wstore {rb rb1 : RingBuffer α} {q : List α} (k : Nat) (v : α) :
      Reach c rb q → k < rb.continuousAvailable → rb.store rb.wdata k v = .ok rb1 →
      Reach c rb1 q
  | wcommit {rb : RingBuffer α} {q : List α} (n : Nat) :
      Reach c rb q → n ≤ rb.continuousAvailable →
      Reach c (rb.wcommit n) (q ++ (rb.buf_.drop rb.wdata).take n)
  | rcommit {rb : RingBuffer α} {q : List α} (n : Nat) :
      Reach c rb q → n ≤ rb.continuousSize → Reach c (rb.rcommit n) (q.drop n)

/-- A reachable state together with its queued content: a state reached from
`RingBuffer(c)`, for `c` zero or a power of two up to `2^31`, through calls made within
their preconditions, and the content of the reference queue at that point. -/
def Reachable {α : Type} [Inhabited α] (rb : RingBuffer α) (q : List α) : Prop :=
  ∃ c, SupportedCapacity c ∧ Reach c rb q

/-- Representation invariant for capacity `2^k`: the cursors are 32-bit values, the write
cursor is `q.length` ahead of the read cursor, and the element at queue position `j`
sits in slot `(rindex_ + j) mod 2^k`. -/
structure Represents {α : Type} (k : Nat) (rb : RingBuffer α) (q : List α) : Prop where
  hk : k ≤ 31
  hlen : rb.buf_.length = 2 ^ k
  hr : rb.rindex_ < UINT_SPAN
  hw : rb.windex_ = (rb.rindex_ + q.length) % UINT_SPAN
  hq : q.length ≤ 2 ^ k
  hslot : ∀ j, j < q.length → rb.buf_[(rb.rindex_ + j) % 2 ^ k]? = q[j]?

/-- Representation invariant for capacity zero: no slots, equal cursors, nothing queued. -/
structure Represents0 {α : Type} (rb : RingBuffer α) (q : List α) : Prop where
  hbuf : rb.buf_ = []
  hr : rb.rindex_ < UINT_SPAN
  hw : rb.windex_ = rb.rindex_
  hq : q = []

/-! ## Arithmetic helpers -/

theorem UINT_SPAN_eq : UINT_SPAN = 4294967296 := by norm_num [UINT_SPAN]

theorem SIZE_SPAN_eq : SIZE_SPAN = 18446744073709551616 := by norm_num [SIZE_SPAN]

theorem pow_le_half {k : Nat} (hk : k ≤ 31) : 2 ^ k ≤ 2147483648 := by
  have h := Nat.pow_le_pow_right (show 0 < 2 by norm_num) hk
  norm_num at h
  exact h

theorem pow_dvd_span {k : Nat} (hk : k ≤ 31) : 2 ^ k ∣ 4294967296 := by
  have h : 2 ^ k ∣ 2 ^ 32 := pow_dvd_pow 2 (by omega)
  norm_num at h
  exact h

theorem mod_ne_of_lt {a b c : Nat} (h1 : a < b) (h2 : b < a + c) : a % c ≠ b % c := by
  intro h
  have h3 : (b - a) % c = 0 := Nat.sub_mod_eq_zero_of_mod_eq h.symm
  have h4 : (b - a) % c = b - a := Nat.mod_eq_of_lt (by omega)
  omega

theorem wrap_add_mod {k : Nat} (hk : k ≤ 31) (a j : Nat) :
    (a % 4294967296 + j) % 2 ^ k = (a + j) % 2 ^ k := by
  rw [Nat.add_mod, Nat.mod_mod_of_dvd _ (pow_dvd_span hk), ← Nat.add_mod]

theorem wrap_mod {k : Nat} (hk : k ≤ 31) (a : Nat) :
    a % 4294967296 % 2 ^ k = a % 2 ^ k := Nat.mod_mod_of_dvd _ (pow_dvd_span hk)

theorem mod_add_of_lt {w j c : Nat} (h : w % c + j < c) : (w + j) % c = w % c + j := by
  rw [Nat.add_mod, Nat.mod_eq_of_lt (a := j) (by omega), Nat.mod_eq_of_lt h]

theorem take_succ_set {α : Type} (l : List α) (i : Nat) (v : α) (h : i < l.length) :
    (l.set i v).take (i + 1) = l.take i ++ [v] := by
  induction l generalizing i with
  | nil => simp at h
  | cons a l ih =>
    cases i with
    | zero => simp
    | succ i =>
      simp only [List.length_cons, Nat.add_lt_add_iff_right] at h
      simp [ih i h]

namespace RingBuffer

variable {α : Type}

theorem mask_eq_mod (rb : RingBuffer α) {k : Nat} (hk : k ≤ 31) (hlen : rb.buf_.length = 2 ^ k)
    (idx : Nat) : rb.mask idx = idx % 2 ^ k := by
  have h1 := pow_le_half hk
  have h0 : 0 < 2 ^ k := Nat.two_pow_pos k
  unfold mask
  rw [hlen, SIZE_SPAN_eq]
  have h2 : (2 ^ k + 18446744073709551616 - 1) % 18446744073709551616 = 2 ^ k - 1 := by omega
  rw [h2, Nat.and_pow_two_sub_one_eq_mod]
  rw [UINT_SPAN_eq] at *
  have h3 : idx % 2 ^ k ≤ idx := Nat.mod_le _ _
  omega

theorem mask_lt (rb : RingBuffer α) {k : Nat} (hk : k ≤ 31) (hlen : rb.buf_.length = 2 ^ k)
    (idx : Nat) : rb.mask idx < rb.buf_.length := by
  rw [mask_eq_mod rb hk hlen idx, hlen]
  exact Nat.mod_lt _ (Nat.two_pow_pos k)

end RingBuffer

namespace Represents

variable {α : Type} {k : Nat} {rb : RingBuffer α} {q : List α}

theorem size_eq (h : Represents k rb q) : rb.size = q.length := by
  have h1 := pow_le_half h.hk
  have h2 := h.hq
  have hr := h.hr
  have hw := h.hw
  unfold RingBuffer.size
  rw [UINT_SPAN_eq] at *
  rw [hw]
  omega

theorem windex_lt (h : Represents k rb q) : rb.windex_ < UINT_SPAN := by
  have hw := h.hw
  rw [UINT_SPAN_eq] at *
  omega

theorem available_eq (h : Represents k rb q) : rb.available = 2 ^ k - q.length := by
  have h1 := pow_le_half h.hk
  have h2 := h.hq
  unfold RingBuffer.available
  rw [h.size_eq, h.hlen, SIZE_SPAN_eq]
  omega

theorem full_eq (h : Represents k rb q) : rb.full = decide (q.length = 2 ^ k) := by
  unfold RingBuffer.full
  rw [h.size_eq, h.hlen]
  by_cases hq : q.length = 2 ^ k <;> simp [hq]

theorem empty_eq (h : Represents k rb q) : rb.empty = decide (q.length = 0) := by
  have h1 := pow_le_half h.hk
  have h2 := h.hq
  have hr := h.hr
  have hw := h.hw
  unfold RingBuffer.empty
  rw [UINT_SPAN_eq] at *
  by_cases hq : q.length = 0
  · have : rb.rindex_ = rb.windex_ := by omega
    simp [hq, this]
  · have : rb.rindex_ ≠ rb.windex_ := by omega
    simp [hq, this]

theorem wslot (h : Represents k rb q) :
    rb.mask rb.windex_ = (rb.rindex_ + q.length) % 2 ^ k := by
  rw [RingBuffer.mask_eq_mod rb h.hk h.hlen, h.hw, UINT_SPAN_eq, wrap_mod h.hk]

theorem rslot (h : Represents k rb q) (j : Nat) :
    rb.mask ((rb.rindex_ + j) % UINT_SPAN) = (rb.rindex_ + j) % 2 ^ k := by
  rw [RingBuffer.mask_eq_mod rb h.hk h.hlen, UINT_SPAN_eq, wrap_mod h.hk]

/-- One appended element: the body of `push` and of one iteration of `write`. -/
theorem put (h : Represents k rb q) (hq : q.length < 2 ^ k) (v : α) :
    Represents k { rindex_ := rb.rindex_
                   windex_ := (rb.windex_ + 1) % UINT_SPAN
                   buf_ := rb.buf_.set (rb.mask rb.windex_) v } (q ++ [v]) := by
  have h1 := pow_le_half h.hk
  have hr := h.hr
  have hw := h.hw
  refine ⟨h.hk, by simp [h.hlen], hr, ?_, by simp; omega, ?_⟩
  · simp only [List.length_append, List.length_singleton]
    rw [UINT_SPAN_eq] at *
    rw [hw]
    omega
  · intro j hj
    simp only [List.length_append, List.length_singleton] at hj
    rw [h.wslot]
    by_cases hjq : j < q.length
    · have hne : (rb.rindex_ + q.length) % 2 ^ k ≠ (rb.rindex_ + j) % 2 ^ k := by
        apply Ne.symm
        apply mod_ne_of_lt <;> omega
      rw [List.getElem?_set_ne hne, List.getElem?_append_left hjq]
      exact h.hslot j hjq
    · have hjeq : j = q.length := by omega
      subst hjeq
      have hlt : (rb.rindex_ + q.length) % 2 ^ k < rb.buf_.length := by
        rw [h.hlen]
        exact Nat.mod_lt _ (Nat.two_pow_pos k)
      simp [List.getElem?_set_self, hlt]

/-- One removed element: the body of `pop` and of one iteration of `read`. -/
theorem take1 (h : Represents k rb q) (v : α) (q1 : List α) (hq : q = v :: q1) :
    rb.buf_[rb.mask rb.rindex_]? = some v ∧
    Represents k { rb with rindex_ := (rb.rindex_ + 1) % UINT_SPAN } q1 := by
  subst hq
  have h1 := pow_le_half h.hk
  have hr := h.hr
  have hw := h.hw
  have hq := h.hq
  simp only [List.length_cons] at hw hq
  constructor
  · have := h.hslot 0 (by simp)
    rw [RingBuffer.mask_eq_mod rb h.hk h.hlen]
    simpa using this
  · refine ⟨h.hk, h.hlen, ?_, ?_, by omega, ?_⟩
    · rw [UINT_SPAN_eq]
      exact Nat.mod_lt _ (by norm_num)
    · show rb.windex_ = ((rb.rindex_ + 1) % UINT_SPAN + q1.length) % UINT_SPAN
      rw [UINT_SPAN_eq] at *
      rw [hw]
      omega
    · intro j hj
      show rb.buf_[((rb.rindex_ + 1) % UINT_SPAN + j) % 2 ^ k]? = q1[j]?
      rw [UINT_SPAN_eq, wrap_add_mod h.hk]
      have := h.hslot (j + 1) (by simp; omega)
      rw [List.getElem?_cons_succ] at this
      rw [← this]
      congr 2
      omega

theorem push_ok (h : Represents k rb q) (hq : q.length < 2 ^ k) (v : α) :
    rb.push v = .ok { rindex_ := rb.rindex_
                      windex_ := (rb.windex_ + 1) % UINT_SPAN
                      buf_ := rb.buf_.set (rb.mask rb.windex_) v } := by
  unfold RingBuffer.push
  have hf : rb.full = false := by
    rw [h.full_eq]
    simp
    omega
  simp [hf, RingBuffer.mask_lt rb h.hk h.hlen]

theorem push_inv (h : Represents k rb q) {v : α} {rb1 : RingBuffer α}
    (hp : rb.push v = .ok rb1) : Represents k rb1 (q ++ [v]) := by
  have hq : q.length < 2 ^ k := by
    by_contra hn
    have hf : rb.full = true := by
      rw [h.full_eq]
      have := h.hq
      simp
      omega
    simp [RingBuffer.push, hf] at hp
  rw [h.push_ok hq v] at hp
  cases hp
  exact h.put hq v

theorem pop_ok (h : Represents k rb q) (v : α) (q1 : List α) (hq : q = v :: q1) :
    rb.pop = .ok (v, { rb with rindex_ := (rb.rindex_ + 1) % UINT_SPAN }) := by
  unfold RingBuffer.pop
  have he : rb.empty = false := by
    rw [h.empty_eq, hq]
    simp
  simp [he, (h.take1 v q1 hq).1]

theorem pop_inv (h : Represents k rb q) {v : α} {rb1 : RingBuffer α}
    (hp : rb.pop = .ok (v, rb1)) : q = v :: q.tail ∧ Represents k rb1 q.tail := by
  cases q with
  | nil =>
    have he : rb.empty = true := by
      rw [h.empty_eq]
      simp
    simp [RingBuffer.pop, he] at hp
  | cons a q1 =>
    rw [h.pop_ok a q1 rfl] at hp
    simp only [Except.ok.injEq, Prod.mk.injEq] at hp
    obtain ⟨hv, hrb⟩ := hp
    subst hv hrb
    exact ⟨rfl, (h.take1 a q1 rfl).2⟩

theorem writeLoop_ok (buf : List α) (n : Nat) :
    ∀ (i : Nat) (rb : RingBuffer α) (q : List α), Represents k rb q →
      q.length + n ≤ 2 ^ k → i + n ≤ buf.length → i + n < UINT_SPAN →
      ∃ rb1, RingBuffer.writeLoop buf n i rb = .ok rb1 ∧
        Represents k rb1 (q ++ (buf.drop i).take n) ∧
        rb1.rindex_ = rb.rindex_ ∧ rb1.windex_ = (rb.windex_ + n) % UINT_SPAN := by
  induction n with
  | zero =>
    intro i rb q h _ _ _
    refine ⟨rb, rfl, by simpa using h, rfl, ?_⟩
    have := h.windex_lt
    rw [UINT_SPAN_eq] at *
    omega
  | succ n ih =>
    intro i rb q h hq hb hi
    have hib : i < buf.length := by omega
    have hstep := h.put (by omega) buf[i]
    have hi1 : (i + 1) % UINT_SPAN = i + 1 := Nat.mod_eq_of_lt (by omega)
    obtain ⟨rb1, hrun, hrep, hr1, hw1⟩ := ih (i + 1) _ _ hstep
      (by simp; omega) (by omega) (by omega)
    refine ⟨rb1, ?_, ?_, hr1, ?_⟩
    · simp only [RingBuffer.writeLoop, List.getElem?_eq_getElem hib,
        RingBuffer.mask_lt rb h.hk h.hlen, if_true, hi1]
      exact hrun
    · have : (buf.drop i).take (n + 1) = buf[i] :: (buf.drop (i + 1)).take n := by
        rw [List.drop_eq_getElem_cons hib, List.take_succ_cons]
      rw [this]
      simpa using hrep
    · rw [hw1]
      show ((rb.windex_ + 1) % UINT_SPAN + n) % UINT_SPAN = _
      rw [UINT_SPAN_eq]
      omega

theorem readLoop_ok (n : Nat) :
    ∀ (i : Nat) (out : List α) (rb : RingBuffer α) (q : List α), Represents k rb q →
      n ≤ q.length → i + n ≤ out.length → i + n < UINT_SPAN →
      RingBuffer.readLoop n i out rb =
        .ok (out.take i ++ (q.take n ++ out.drop (i + n)),
             { rb with rindex_ := (rb.rindex_ + n) % UINT_SPAN }) ∧
      Represents k { rb with rindex_ := (rb.rindex_ + n) % UINT_SPAN } (q.drop n) := by
  induction n with
  | zero =>
    intro i out rb q h _ _ _
    have hr := h.hr
    have h0 : (rb.rindex_ + 0) % UINT_SPAN = rb.rindex_ := Nat.mod_eq_of_lt hr
    simp only [RingBuffer.readLoop, h0]
    exact ⟨by simp, by simpa using h⟩
  | succ n ih =>
    intro i out rb q h hq ho hi
    cases q with
    | nil => simp at hq
    | cons v q1 =>
      simp only [List.length_cons, Nat.add_le_add_iff_right] at hq
      obtain ⟨hget, hrep⟩ := h.take1 v q1 rfl
      have hio : i < out.length := by omega
      have hi1 : (i + 1) % UINT_SPAN = i + 1 := Nat.mod_eq_of_lt (by omega)
      obtain ⟨hrun, hrep2⟩ := ih (i + 1) (out.set i v) _ q1 hrep hq
        (by simp; omega) (by omega)
      have hrr : ((rb.rindex_ + 1) % UINT_SPAN + n) % UINT_SPAN
          = (rb.rindex_ + (n + 1)) % UINT_SPAN := by
        rw [UINT_SPAN_eq]
        omega
      simp only [hrr] at hrun hrep2
      refine ⟨?_, by simpa using hrep2⟩
      simp only [RingBuffer.readLoop, hget, hio, if_true, hi1]
      rw [hrun, take_succ_set out i v hio, List.drop_set_of_lt v out (by omega)]
      simp [Nat.add_assoc, Nat.add_comm 1 n]

theorem popN_ok (n : Nat) :
    ∀ (rb : RingBuffer α) (q : List α), Represents k rb q → n ≤ q.length →
      RingBuffer.popN n rb =
        .ok (q.take n, { rb with rindex_ := (rb.rindex_ + n) % UINT_SPAN }) := by
  induction n with
  | zero =>
    intro rb q h _
    have h0 : rb.rindex_ % UINT_SPAN = rb.rindex_ := Nat.mod_eq_of_lt h.hr
    simp [RingBuffer.popN, h0]
  | succ n ih =>
    intro rb q h hq
    cases q with
    | nil => simp at hq
    | cons v q1 =>
      simp only [List.length_cons, Nat.add_le_add_iff_right] at hq
      have hrr : ((rb.rindex_ + 1) % UINT_SPAN + n) % UINT_SPAN
          = (rb.rindex_ + (n + 1)) % UINT_SPAN := by
        rw [UINT_SPAN_eq]
        omega
      have := ih _ q1 (h.take1 v q1 rfl).2 hq
      simp only [hrr] at this
      simp [RingBuffer.popN, h.pop_ok v q1 rfl, this]

theorem dropN (n : Nat) :
    ∀ (rb : RingBuffer α) (q : List α), Represents k rb q → n ≤ q.length →
      Represents k { rb with rindex_ := (rb.rindex_ + n) % UINT_SPAN } (q.drop n) := by
  induction n with
  | zero =>
    intro rb q h _
    have h0 : (rb.rindex_ + 0) % UINT_SPAN = rb.rindex_ := Nat.mod_eq_of_lt h.hr
    rw [h0]
    simpa using h
  | succ n ih =>
    intro rb q h hq
    cases q with
    | nil => simp at hq
    | cons v q1 =>
      simp only [List.length_cons, Nat.add_le_add_iff_right] at hq
      have hrr : ((rb.rindex_ + 1) % UINT_SPAN + n) % UINT_SPAN
          = (rb.rindex_ + (n + 1)) % UINT_SPAN := by
        rw [UINT_SPAN_eq]
        omega
      have := ih _ q1 (h.take1 v q1 rfl).2 hq
      simp only [hrr] at this
      simpa using this

theorem continuousAvailable_eq (h : Represents k rb q) :
    rb.continuousAvailable = min (2 ^ k - q.length) (2 ^ k - rb.windex_ % 2 ^ k) := by
  have h1 := pow_le_half h.hk
  have h2 : rb.windex_ % 2 ^ k < 2 ^ k := Nat.mod_lt _ (Nat.two_pow_pos k)
  unfold RingBuffer.continuousAvailable
  simp only [h.available_eq, RingBuffer.mask_eq_mod rb h.hk h.hlen, h.hlen, SIZE_SPAN_eq]
  have h3 : (2 ^ k + 18446744073709551616 - rb.windex_ % 2 ^ k) % 18446744073709551616
      = 2 ^ k - rb.windex_ % 2 ^ k := by omega
  rw [h3]
  split <;> omega

theorem continuousSize_eq (h : Represents k rb q) :
    rb.continuousSize = min q.length (2 ^ k - rb.rindex_ % 2 ^ k) := by
  have h1 := pow_le_half h.hk
  have h2 : rb.rindex_ % 2 ^ k < 2 ^ k := Nat.mod_lt _ (Nat.two_pow_pos k)
  unfold RingBuffer.continuousSize
  simp only [h.size_eq, RingBuffer.mask_eq_mod rb h.hk h.hlen, h.hlen, SIZE_SPAN_eq]
  have h3 : (2 ^ k + 18446744073709551616 - rb.rindex_ % 2 ^ k) % 18446744073709551616
      = 2 ^ k - rb.rindex_ % 2 ^ k := by omega
  rw [h3]
  split <;> omega

theorem wdata_eq (h : Represents k rb q) : rb.wdata = rb.windex_ % 2 ^ k :=
  RingBuffer.mask_eq_mod rb h.hk h.hlen _

/-- Slot `wdata() + j` of the borrowed free region is the slot of absolute index
`windex_ + j`. -/
theorem wregion (h : Represents k rb q) {j : Nat} (hj : j < rb.continuousAvailable) :
    rb.wdata + j < 2 ^ k ∧ rb.wdata + j = (rb.rindex_ + (q.length + j)) % 2 ^ k ∧
    q.length + j < 2 ^ k := by
  rw [h.continuousAvailable_eq] at hj
  have hw : rb.wdata = (rb.rindex_ + q.length) % 2 ^ k := h.wslot
  have hw2 := h.wdata_eq
  have hlt : rb.wdata + j < 2 ^ k := by omega
  refine ⟨hlt, ?_, by omega⟩
  rw [← Nat.add_assoc, mod_add_of_lt (by rw [← hw]; exact hlt), hw]

theorem store_inv (h : Represents k rb q) {j : Nat} (hj : j < rb.continuousAvailable) (v : α) :
    rb.store rb.wdata j v = .ok { rb with buf_ := rb.buf_.set (rb.wdata + j) v } ∧
    Represents k { rb with buf_ := rb.buf_.set (rb.wdata + j) v } q := by
  obtain ⟨hlt, heq, hql⟩ := h.wregion hj
  constructor
  · simp [RingBuffer.store, h.hlen, hlt]
  · refine ⟨h.hk, by simp [h.hlen], h.hr, h.hw, h.hq, ?_⟩
    intro i hi
    show (rb.buf_.set (rb.wdata + j) v)[(rb.rindex_ + i) % 2 ^ k]? = q[i]?
    have hne : rb.wdata + j ≠ (rb.rindex_ + i) % 2 ^ k := by
      rw [heq]
      apply Ne.symm
      apply mod_ne_of_lt <;> omega
    rw [List.getElem?_set_ne hne]
    exact h.hslot i hi

theorem wcommit_inv (h : Represents k rb q) {n : Nat} (hn : n ≤ rb.continuousAvailable) :
    Represents k (rb.wcommit n) (q ++ (rb.buf_.drop rb.wdata).take n) := by
  have h1 := pow_le_half h.hk
  have hr := h.hr
  have hw := h.hw
  have hq := h.hq
  have hca := h.continuousAvailable_eq
  have hwd := h.wdata_eq
  have hwlt : rb.windex_ % 2 ^ k < 2 ^ k := Nat.mod_lt _ (Nat.two_pow_pos k)
  have hlen : ((rb.buf_.drop rb.wdata).take n).length = n := by
    simp [h.hlen]
    omega
  refine ⟨h.hk, h.hlen, hr, ?_, by rw [List.length_append, hlen]; omega, ?_⟩
  · show (rb.windex_ + n) % UINT_SPAN = (rb.rindex_ + (q ++ _).length) % UINT_SPAN
    rw [List.length_append, hlen]
    rw [UINT_SPAN_eq] at *
    omega
  · intro j hj
    rw [List.length_append, hlen] at hj
    show rb.buf_[(rb.rindex_ + j) % 2 ^ k]? = _
    by_cases hjq : j < q.length
    · rw [List.getElem?_append_left hjq]
      exact h.hslot j hjq
    · have hj2 : j - q.length < rb.continuousAvailable := by omega
      obtain ⟨_, heq, _⟩ := h.wregion hj2
      rw [List.getElem?_append_right (by omega), List.getElem?_take_of_lt (by omega),
        List.getElem?_drop, heq]
      congr 2
      omega

theorem discard_inv (h : Represents k rb q) : Represents k rb.discard [] := by
  have hw := h.windex_lt
  refine ⟨h.hk, h.hlen, hw, ?_, by simp, by simp⟩
  show rb.windex_ = (rb.windex_ + 0) % UINT_SPAN
  rw [UINT_SPAN_eq] at *
  omega

theorem rcommit_inv (h : Represents k rb q) {n : Nat} (hn : n ≤ rb.continuousSize) :
    Represents k (rb.rcommit n) (q.drop n) := by
  rw [h.continuousSize_eq] at hn
  exact h.dropN n rb q (by omega)

theorem write_ok (h : Represents k rb q) {buf : List α} {n : Nat}
    (hn : n ≤ rb.available) (hb : n ≤ buf.length) :
    ∃ rb1, rb.write buf n = .ok (true, rb1) ∧ Represents k rb1 (q ++ buf.take n) ∧
      rb1.rindex_ = rb.rindex_ ∧ rb1.windex_ = (rb.windex_ + n) % UINT_SPAN := by
  have h1 := pow_le_half h.hk
  have hq := h.hq
  have hav := h.available_eq
  have hspan := UINT_SPAN_eq
  obtain ⟨rb1, hrun, hrep, hr1, hw1⟩ := writeLoop_ok buf n 0 rb q h (by omega)
    (by omega) (by omega)
  refine ⟨rb1, ?_, by simpa using hrep, hr1, hw1⟩
  unfold RingBuffer.write
  rw [if_neg (by omega), if_neg (by omega), hrun]

theorem read_ok (h : Represents k rb q) {out : List α} {n : Nat}
    (hn : n ≤ rb.size) (ho : n ≤ out.length) :
    rb.read out n = .ok (true, q.take n ++ out.drop n,
      { rb with rindex_ := (rb.rindex_ + n) % UINT_SPAN }) := by
  have h1 := pow_le_half h.hk
  have hq := h.hq
  have hsz := h.size_eq
  have hspan := UINT_SPAN_eq
  have hrun := (readLoop_ok n 0 out rb q h (by omega) (by omega) (by omega)).1
  unfold RingBuffer.read
  rw [if_neg (by omega), if_neg (by omega), hrun]
  simp

end Represents

namespace RingBuffer

variable {α : Type}

theorem writeLoop_bound (buf : List α) (n : Nat) :
    ∀ (i : Nat) (rb rb1 : RingBuffer α), i + n < UINT_SPAN →
      writeLoop buf n i rb = .ok rb1 → n = 0 ∨ i + n ≤ buf.length := by
  induction n with
  | zero => intro _ _ _ _ _; exact Or.inl rfl
  | succ n ih =>
    intro i rb rb1 hi hrun
    right
    unfold writeLoop at hrun
    cases hget : buf[i]? with
    | none => simp [hget] at hrun
    | some v =>
      have hlt : i < buf.length := by
        by_contra hc
        rw [List.getElem?_eq_none (by omega)] at hget
        cases hget
      have hi1 : (i + 1) % UINT_SPAN = i + 1 := Nat.mod_eq_of_lt (by omega)
      simp only [hget, hi1] at hrun
      split at hrun
      · rcases ih (i + 1) _ rb1 (by omega) hrun with h0 | h0 <;> omega
      · cases hrun

theorem readLoop_bound (n : Nat) :
    ∀ (i : Nat) (out : List α) (rb : RingBuffer α) (res : List α × RingBuffer α),
      i + n < UINT_SPAN → readLoop n i out rb = .ok res → n = 0 ∨ i + n ≤ out.length := by
  induction n with
  | zero => intro _ _ _ _ _ _; exact Or.inl rfl
  | succ n ih =>
    intro i out rb res hi hrun
    right
    unfold readLoop at hrun
    cases hget : rb.buf_[rb.mask rb.rindex_]? with
    | none => simp [hget] at hrun
    | some v =>
      have hi1 : (i + 1) % UINT_SPAN = i + 1 := Nat.mod_eq_of_lt (by omega)
      simp only [hget, hi1] at hrun
      split at hrun
      · rename_i hlt
        rcases ih (i + 1) _ _ res (by omega) hrun with h0 | h0
        · omega
        · simp at h0
          omega
      · cases hrun

end RingBuffer

namespace Represents

variable {α : Type} {k : Nat} {rb : RingBuffer α} {q : List α}

theorem write_inv (h : Represents k rb q) {buf : List α} {n : Nat} {rb1 : RingBuffer α}
    (hw : rb.write buf n = .ok (true, rb1)) : Represents k rb1 (q ++ buf.take n) := by
  have hspan := UINT_SPAN_eq
  have hav : n ≤ rb.available ∧ n < UINT_SPAN ∧ n ≤ buf.length := by
    unfold RingBuffer.write at hw
    split at hw
    · simp at hw
    · split at hw
      · cases hw
      · split at hw
        · rename_i rb2 hrun
          have := RingBuffer.writeLoop_bound buf n 0 rb rb2 (by omega) hrun
          omega
        · cases hw
  obtain ⟨rb2, hrun, hrep, _, _⟩ := h.write_ok hav.1 hav.2.2
  rw [hrun] at hw
  simp only [Except.ok.injEq, Prod.mk.injEq, true_and] at hw
  subst hw
  exact hrep

theorem read_inv (h : Represents k rb q) {out out1 : List α} {n : Nat} {rb1 : RingBuffer α}
    (hrd : rb.read out n = .ok (true, out1, rb1)) : Represents k rb1 (q.drop n) := by
  have hspan := UINT_SPAN_eq
  have hsz : n ≤ rb.size ∧ n < UINT_SPAN ∧ n ≤ out.length := by
    unfold RingBuffer.read at hrd
    split at hrd
    · simp at hrd
    · split at hrd
      · cases hrd
      · split at hrd
        · rename_i out2 rb2 hrun
          have := RingBuffer.readLoop_bound n 0 out rb _ (by omega) hrun
          omega
        · cases hrd
  rw [h.read_ok hsz.1 hsz.2.2] at hrd
  simp only [Except.ok.injEq, Prod.mk.injEq, true_and] at hrd
  obtain ⟨_, hrb⟩ := hrd
  subst hrb
  have := h.size_eq
  exact h.dropN n rb q (by omega)

theorem init_inv [Inhabited α] (hk : k ≤ 31) {rb : RingBuffer α}
    (hnew : RingBuffer.new (2 ^ k) = .ok rb) : Represents k rb [] := by
  unfold RingBuffer.new RingBuffer.capacity at hnew
  split at hnew
  · simp only [Except.ok.injEq] at hnew
    subst hnew
    refine ⟨hk, by simp [vectorResize], by simp [UINT_SPAN_eq], by simp, by simp, by simp⟩
  · cases hnew

end Represents

namespace Represents0

variable {α : Type} {rb : RingBuffer α} {q : List α}

theorem size_zero (h : Represents0 rb q) : rb.size = 0 := by
  have hr := h.hr
  unfold RingBuffer.size
  rw [h.hw]
  rw [UINT_SPAN_eq] at *
  omega

theorem available_zero (h : Represents0 rb q) : rb.available = 0 := by
  unfold RingBuffer.available
  rw [h.size_zero, h.hbuf, SIZE_SPAN_eq]
  simp

theorem full_true (h : Represents0 rb q) : rb.full = true := by
  unfold RingBuffer.full
  rw [h.size_zero, h.hbuf]
  simp

theorem empty_true (h : Represents0 rb q) : rb.empty = true := by
  unfold RingBuffer.empty
  rw [h.hw]
  simp

theorem continuousAvailable_zero (h : Represents0 rb q) : rb.continuousAvailable = 0 := by
  unfold RingBuffer.continuousAvailable
  simp only [h.available_zero]
  split <;> omega

theorem continuousSize_zero (h : Represents0 rb q) : rb.continuousSize = 0 := by
  unfold RingBuffer.continuousSize
  simp only [h.size_zero]
  split <;> omega

theorem write_noop (h : Represents0 rb q) {buf : List α} {n : Nat} {rb1 : RingBuffer α}
    (hw : rb.write buf n = .ok (true, rb1)) : n = 0 ∧ rb1 = rb := by
  have hav := h.available_zero
  unfold RingBuffer.write at hw
  split at hw
  · simp at hw
  · have hn : n = 0 := by omega
    subst hn
    simp [UINT_SPAN_eq, RingBuffer.writeLoop] at hw
    exact ⟨rfl, hw.symm⟩

theorem read_noop (h : Represents0 rb q) {out out1 : List α} {n : Nat} {rb1 : RingBuffer α}
    (hrd : rb.read out n = .ok (true, out1, rb1)) : n = 0 ∧ out1 = out ∧ rb1 = rb := by
  have hsz := h.size_zero
  unfold RingBuffer.read at hrd
  split at hrd
  · simp at hrd
  · have hn : n = 0 := by omega
    subst hn
    simp [UINT_SPAN_eq, RingBuffer.readLoop] at hrd
    exact ⟨rfl, hrd.1.symm, hrd.2.symm⟩

theorem wcommit_zero (h : Represents0 rb q) : rb.wcommit 0 = rb := by
  have hr := h.hr
  have hw := h.hw
  unfold RingBuffer.wcommit
  have : (rb.windex_ + 0) % UINT_SPAN = rb.windex_ := by
    rw [UINT_SPAN_eq] at *
    omega
  rw [this]

theorem rcommit_zero (h : Represents0 rb q) : rb.rcommit 0 = rb := by
  have hr := h.hr
  unfold RingBuffer.rcommit
  have : (rb.rindex_ + 0) % UINT_SPAN = rb.rindex_ := by
    rw [UINT_SPAN_eq] at *
    omega
  rw [this]

end Represents0

namespace Reach

variable {α : Type} [Inhabited α] {rb : RingBuffer α} {q : List α}

/-- Every state reachable from `RingBuffer(2^k)`, `k <= 31`, satisfies the representation
invariant with respect to its reference queue. -/
theorem represents {k : Nat} (hk : k ≤ 31) (h : Reach (2 ^ k) rb q) : Represents k rb q := by
  induction h with
  | init hnew => exact Represents.init_inv hk hnew
  | push v _ hp ih => exact ih.push_inv hp
  | pop v _ hp ih => exact (ih.pop_inv hp).2
  | discard _ ih => exact ih.discard_inv
  | write buf n _ hw ih => exact ih.write_inv hw
  | read out out1 n _ hrd ih => exact ih.read_inv hrd
  | wstore j v _ hj hs ih =>
    obtain ⟨hst, hrep⟩ := ih.store_inv hj v
    rw [hst] at hs
    simp only [Except.ok.injEq] at hs
    subst hs
    exact hrep
  | wcommit n _ hn ih => exact ih.wcommit_inv hn
  | rcommit n _ hn ih => exact ih.rcommit_inv hn

/-- Every state reachable from `RingBuffer(0)` has no slots, equal cursors and an empty
reference queue. -/
theorem represents0 (h : Reach 0 rb q) : Represents0 rb q := by
  induction h with
  | init hnew =>
    unfold RingBuffer.new RingBuffer.capacity at hnew
    split at hnew
    · simp only [Except.ok.injEq] at hnew
      subst hnew
      exact ⟨by simp [vectorResize], by simp [UINT_SPAN_eq], rfl, rfl⟩
    · cases hnew
  | push v _ hp ih => simp [RingBuffer.push, ih.full_true] at hp
  | pop v _ hp ih => simp [RingBuffer.pop, ih.empty_true] at hp
  | discard _ ih =>
    refine ⟨ih.hbuf, ?_, rfl, rfl⟩
    simp only [RingBuffer.discard]
    rw [ih.hw]
    exact ih.hr
  | write buf n _ hw ih =>
    obtain ⟨hn, hrb⟩ := ih.write_noop hw
    subst hn hrb
    exact ⟨ih.hbuf, ih.hr, ih.hw, by simp [ih.hq]⟩
  | read out out1 n _ hrd ih =>
    obtain ⟨hn, _, hrb⟩ := ih.read_noop hrd
    subst hn hrb
    exact ⟨ih.hbuf, ih.hr, ih.hw, by simp [ih.hq]⟩
  | wstore j v _ hj hs ih =>
    rw [ih.continuousAvailable_zero] at hj
    omega
  | wcommit n _ hn ih =>
    rw [ih.continuousAvailable_zero] at hn
    have hn0 : n = 0 := by omega
    subst hn0
    rw [ih.wcommit_zero]
    exact ⟨ih.hbuf, ih.hr, ih.hw, by simp [ih.hq]⟩
  | rcommit n _ hn ih =>
    rw [ih.continuousSize_zero] at hn
    have hn0 : n = 0 := by omega
    subst hn0
    rw [ih.rcommit_zero]
    exact ⟨ih.hbuf, ih.hr, ih.hw, by simp [ih.hq]⟩

end Reach

theorem Reachable.cases {α : Type} [Inhabited α] {rb : RingBuffer α} {q : List α}
    (h : Reachable rb q) : Represents0 rb q ∨ ∃ k, Represents k rb q := by
  obtain ⟨c, hc, hr⟩ := h
  rcases hc with hc | ⟨k, hk, hc⟩
  · subst hc
    exact Or.inl hr.represents0
  · subst hc
    exact Or.inr ⟨k, hr.represents hk⟩

/-! ## FIFO order (C1) -/

theorem runCalls_fifo {α : Type} {k : Nat} (cs : List (Call α)) :
    ∀ (rb : RingBuffer α) (q : List α), Represents k rb q → admissible rb cs = true →
      ∃ rbN, runCalls rb cs = .ok (fifoCalls q cs, rbN) := by
  induction cs with
  | nil => intro rb q _ _; exact ⟨rb, rfl⟩
  | cons c cs ih =>
    intro rb q h hadm
    cases c with
    | push v =>
      simp only [admissible, Bool.and_eq_true, Bool.not_eq_true'] at hadm
      have hq : q.length < 2 ^ k := by
        have hf := hadm.1
        rw [h.full_eq] at hf
        have := h.hq
        simp at hf
        omega
      have hp := h.push_ok hq v
      have hadm2 := hadm.2
      rw [hp] at hadm2
      obtain ⟨rbN, hrun⟩ := ih _ _ (h.put hq v) hadm2
      exact ⟨rbN, by simp only [runCalls, hp, fifoCalls]; exact hrun⟩
    | pop =>
      simp only [admissible, Bool.and_eq_true, Bool.not_eq_true'] at hadm
      cases q with
      | nil =>
        have he := hadm.1
        rw [h.empty_eq] at he
        simp at he
      | cons x q1 =>
        have hp := h.pop_ok x q1 rfl
        have hadm2 := hadm.2
        rw [hp] at hadm2
        obtain ⟨rbN, hrun⟩ := ih _ _ (h.take1 x q1 rfl).2 hadm2
        exact ⟨rbN, by simp [runCalls, hp, fifoCalls, hrun]⟩

theorem isPowerOfTwo_pow {k : Nat} (hk : k ≤ 31) :
    RingBuffer.isPowerOfTwo (2 ^ k % UINT_SPAN) = true := by
  interval_cases k <;> rfl

/-- The constructor accepts every power of two up to `2^31`. -/
theorem new_pow_ok {α : Type} [Inhabited α] {k : Nat} (hk : k ≤ 31) :
    (RingBuffer.new (2 ^ k) : Except Fault (RingBuffer α)) =
      .ok ⟨0, 0, List.replicate (2 ^ k) default⟩ := by
  unfold RingBuffer.new RingBuffer.capacity
  rw [if_pos (isPowerOfTwo_pow hk)]
  simp [vectorResize]

/-- C1. FIFO order. For every capacity `2^k` with `k <= 31` (the powers of two from 1 to
`2^31`) the constructor returns a buffer `rb0`, and for every sequence `cs` of
`push`/`pop` calls run on it in which no push is issued while `full()` and no pop while
`empty()`, the run returns normally and the pops return exactly the values the reference
FIFO queue (list append, remove head) returns, in the same order. In particular, in every
state reachable from that constructor in which the buffer is empty, `push(v)` followed by
`pop()` returns `v`. -/
theorem fifo_order {α : Type} [Inhabited α] (k : Nat) (hk : k ≤ 31) (cs : List (Call α)) :
    ∃ rb0 : RingBuffer α, RingBuffer.new (2 ^ k) = .ok rb0 ∧
      (admissible rb0 cs = true → ∃ rbN, runCalls rb0 cs = .ok (fifoCalls [] cs, rbN)) ∧
      (∀ (rb : RingBuffer α) (q : List α) (v : α), Reach (2 ^ k) rb q → rb.empty = true →
        ∃ rb1 rb2, rb.push v = .ok rb1 ∧ rb1.pop = .ok (v, rb2)) := by
  refine ⟨_, new_pow_ok hk, ?_, ?_⟩
  · intro hadm
    exact runCalls_fifo cs _ [] (Represents.init_inv hk (new_pow_ok hk)) hadm
  · intro rb q v hr he
    have h := hr.represents hk
    rw [h.empty_eq] at he
    simp only [decide_eq_true_eq, List.length_eq_zero] at he
    subst he
    have hq : ([] : List α).length < 2 ^ k := by
      have := Nat.two_pow_pos k
      simp
    have hp := h.push_ok hq v
    have h1 := h.put hq v
    exact ⟨_, _, hp, h1.pop_ok v [] rfl⟩

theorem fifo_order_witness :
    (2 ≤ 31) ∧
    RingBuffer.new (2 ^ 2) = .ok (⟨0, 0, [0, 0, 0, 0]⟩ : RingBuffer Nat) ∧
    admissible (⟨0, 0, [0, 0, 0, 0]⟩ : RingBuffer Nat)
      [.push 1, .push 2, .pop, .push 3, .push 4, .push 5, .pop, .pop, .pop, .pop] = true ∧
    runCalls (⟨0, 0, [0, 0, 0, 0]⟩ : RingBuffer Nat)
      [.push 1, .push 2, .pop, .push 3, .push 4, .push 5, .pop, .pop, .pop, .pop] =
      .ok ([1, 2, 3, 4, 5], ⟨5, 5, [5, 2, 3, 4]⟩) ∧
    fifoCalls ([] : List Nat)
      [.push 1, .push 2, .pop, .push 3, .push 4, .push 5, .pop, .pop, .pop, .pop] =
      [1, 2, 3, 4, 5] ∧
    (∃ rb0 : RingBuffer Nat, RingBuffer.new (2 ^ 2) = .ok rb0 ∧
      (admissible rb0
          [.push 1, .push 2, .pop, .push 3, .push 4, .push 5, .pop, .pop, .pop, .pop] = true →
        ∃ rbN, runCalls rb0
          [.push 1, .push 2, .pop, .push 3, .push 4, .push 5, .pop, .pop, .pop, .pop] =
          .ok (fifoCalls []
            [.push 1, .push 2, .pop, .push 3, .push 4, .push 5, .pop, .pop, .pop, .pop],
            rbN)) ∧
      (∀ (rb : RingBuffer Nat) (q : List Nat) (v : Nat), Reach (2 ^ 2) rb q →
        rb.empty = true → ∃ rb1 rb2, rb.push v = .ok rb1 ∧ rb1.pop = .ok (v, rb2))) :=
  ⟨by decide, rfl, rfl, rfl, rfl, fifo_order 2 (by decide) _⟩

/-! ## Bulk write and read (C2 - C5) -/

theorem Represents.drain {α : Type} {k : Nat} {rb : RingBuffer α} {q : List α}
    (h : Represents k rb q) : ∃ rb2, rb.popN rb.size = .ok (q, rb2) := by
  rw [h.size_eq, h.popN_ok q.length rb q (Nat.le_refl _), List.take_length]
  exact ⟨_, rfl⟩

theorem Represents0.drain_nil {α : Type} {rb : RingBuffer α} {q : List α}
    (h : Represents0 rb q) : ∃ rb2, rb.popN rb.size = .ok (q, rb2) := by
  rw [h.size_zero, h.hq]
  exact ⟨rb, rfl⟩

/-- The scenario of the spec: capacity 4, push 1, 2, 3, 4, then pop twice. -/
theorem sample_reach : Reach 4 (⟨2, 4, [1, 2, 3, 4]⟩ : RingBuffer Nat) [3, 4] := by
  have r0 : Reach 4 (⟨0, 0, [0, 0, 0, 0]⟩ : RingBuffer Nat) [] := Reach.init rfl
  have r1 : Reach 4 (⟨0, 1, [1, 0, 0, 0]⟩ : RingBuffer Nat) [1] := Reach.push 1 r0 rfl
  have r2 : Reach 4 (⟨0, 2, [1, 2, 0, 0]⟩ : RingBuffer Nat) [1, 2] := Reach.push 2 r1 rfl
  have r3 : Reach 4 (⟨0, 3, [1, 2, 3, 0]⟩ : RingBuffer Nat) [1, 2, 3] := Reach.push 3 r2 rfl
  have r4 : Reach 4 (⟨0, 4, [1, 2, 3, 4]⟩ : RingBuffer Nat) [1, 2, 3, 4] :=
    Reach.push 4 r3 rfl
  have r5 : Reach 4 (⟨1, 4, [1, 2, 3, 4]⟩ : RingBuffer Nat) [2, 3, 4] := Reach.pop 1 r4 rfl
  exact Reach.pop 2 r5 rfl

theorem sample_reachable : Reachable (⟨2, 4, [1, 2, 3, 4]⟩ : RingBuffer Nat) [3, 4] :=
  ⟨4, Or.inr ⟨2, by decide, by decide⟩, sample_reach⟩

/-- C2. A successful write appends in order, also across the physical wrap. In every
reachable state with queued content `q` (oldest first), for every caller array `buf` and
every `n <= available()` (the array holding at least `n` elements), `write(buf, n)`
returns true, advances `windex_` by exactly `n` (modulo `2^32`), leaves `rindex_` and the
capacity unchanged, and the queued content afterwards is `q` followed by `buf[0..n-1]`:
the new state is reachable with that reference queue and `size()` successive pops return
exactly that list. -/
theorem write_appends {α : Type} [Inhabited α] (rb : RingBuffer α) (q : List α)
    (h : Reachable rb q) (buf : List α) (n : Nat)
    (hn : n ≤ rb.available) (hb : n ≤ buf.length) :
    ∃ rb1, rb.write buf n = .ok (true, rb1) ∧
      rb1.windex_ = (rb.windex_ + n) % UINT_SPAN ∧
      rb1.rindex_ = rb.rindex_ ∧
      rb1.buf_.length = rb.buf_.length ∧
      Reachable rb1 (q ++ buf.take n) ∧
      rb1.size = q.length + n ∧
      ∃ rb2, rb1.popN rb1.size = .ok (q ++ buf.take n, rb2) := by
  have hreach : ∀ rb1, rb.write buf n = .ok (true, rb1) → Reachable rb1 (q ++ buf.take n) := by
    intro rb1 hw
    obtain ⟨c, hc, hr⟩ := h
    exact ⟨c, hc, Reach.write buf n hr hw⟩
  rcases h.cases with h0 | ⟨k, hk⟩
  · have hn0 : n = 0 := by
      have := h0.available_zero
      omega
    subst hn0
    have hw : rb.write buf 0 = .ok (true, rb) := by
      simp [RingBuffer.write, RingBuffer.writeLoop, UINT_SPAN_eq]
    have hwi : (rb.windex_ + 0) % UINT_SPAN = rb.windex_ := by
      have := h0.hr
      have := h0.hw
      rw [UINT_SPAN_eq] at *
      omega
    refine ⟨rb, hw, hwi.symm, rfl, rfl, hreach rb hw, ?_, ?_⟩
    · rw [h0.size_zero, h0.hq]
      rfl
    · have := h0.drain_nil
      simpa using this
  · obtain ⟨rb1, hw, hrep, hr1, hw1⟩ := hk.write_ok hn hb
    refine ⟨rb1, hw, hw1, hr1, ?_, hreach rb1 hw, ?_, hrep.drain⟩
    · rw [hrep.hlen, hk.hlen]
    · rw [hrep.size_eq]
      simp [hb]

theorem write_appends_witness :
    Reachable (⟨2, 4, [1, 2, 3, 4]⟩ : RingBuffer Nat) [3, 4] ∧
    2 ≤ RingBuffer.available (⟨2, 4, [1, 2, 3, 4]⟩ : RingBuffer Nat) ∧
    2 ≤ [5, 6].length ∧
    ∃ rb1, RingBuffer.write (⟨2, 4, [1, 2, 3, 4]⟩ : RingBuffer Nat) [5, 6] 2 = .ok (true, rb1) ∧
      rb1.windex_ = (4 + 2) % UINT_SPAN ∧
      rb1.rindex_ = 2 ∧
      rb1.buf_.length = 4 ∧
      Reachable rb1 ([3, 4] ++ [5, 6]) ∧
      rb1.size = 2 + 2 ∧
      ∃ rb2, rb1.popN rb1.size = .ok ([3, 4] ++ [5, 6], rb2) :=
  have hreach := sample_reachable
  ⟨hreach, by decide, by decide, write_appends _ _ hreach [5, 6] 2 (by decide) (by decide)⟩

/-- C3. A successful read returns the oldest elements in order. In every reachable state
with queued content `q`, for every `n <= size()` and every caller array `out` of at least
`n` elements, `read(out, n)` returns true, sets `out[0..n-1]` to the first `n` elements of
`q` and leaves the rest of `out` alone; `n` successive `pop()` calls return the same values
in the same order and end in the same state; `rindex_` advances by exactly `n` (modulo
`2^32`); `windex_` and the backing store (hence the capacity) are unchanged; the queued
content afterwards is `q` without its first `n` elements. -/
theorem read_oldest {α : Type} [Inhabited α] (rb : RingBuffer α) (q : List α)
    (h : Reachable rb q) (out : List α) (n : Nat)
    (hn : n ≤ rb.size) (ho : n ≤ out.length) :
    ∃ out1 rb1, rb.read out n = .ok (true, out1, rb1) ∧
      out1.take n = q.take n ∧
      out1.drop n = out.drop n ∧
      rb.popN n = .ok (q.take n, rb1) ∧
      rb1.rindex_ = (rb.rindex_ + n) % UINT_SPAN ∧
      rb1.windex_ = rb.windex_ ∧
      rb1.buf_ = rb.buf_ ∧
      Reachable rb1 (q.drop n) ∧
      ∃ rb2, rb1.popN rb1.size = .ok (q.drop n, rb2) := by
  have hreach : ∀ out1 rb1, rb.read out n = .ok (true, out1, rb1) →
      Reachable rb1 (q.drop n) := by
    intro out1 rb1 hrd
    obtain ⟨c, hc, hr⟩ := h
    exact ⟨c, hc, Reach.read out out1 n hr hrd⟩
  rcases h.cases with h0 | ⟨k, hk⟩
  · have hn0 : n = 0 := by
      have := h0.size_zero
      omega
    subst hn0
    have hrd : rb.read out 0 = .ok (true, out, rb) := by
      simp [RingBuffer.read, RingBuffer.readLoop, UINT_SPAN_eq]
    have hri : (rb.rindex_ + 0) % UINT_SPAN = rb.rindex_ := Nat.mod_eq_of_lt h0.hr
    refine ⟨out, rb, hrd, by simp, rfl, rfl, hri.symm, rfl, rfl, hreach out rb hrd, ?_⟩
    have := h0.drain_nil
    simpa using this
  · have hsz := hk.size_eq
    have hrd := hk.read_ok hn ho
    have hrep := hk.dropN n rb q (by omega)
    refine ⟨_, _, hrd, ?_, ?_, hk.popN_ok n rb q (by omega), rfl, rfl, rfl,
      hreach _ _ hrd, hrep.drain⟩
    · rw [List.take_append_of_le_length (by simp; omega)]
      simp
    · have hl : (q.take n).length = n := by simp; omega
      rw [List.drop_append_of_le_length (by omega), List.drop_of_length_le (by omega)]
      simp

theorem read_oldest_witness :
    Reachable (⟨2, 4, [1, 2, 3, 4]⟩ : RingBuffer Nat) [3, 4] ∧
    1 ≤ RingBuffer.size (⟨2, 4, [1, 2, 3, 4]⟩ : RingBuffer Nat) ∧
    1 ≤ [7, 8, 9].length ∧
    ∃ out1 rb1, RingBuffer.read (⟨2, 4, [1, 2, 3, 4]⟩ : RingBuffer Nat) [7, 8, 9] 1
        = .ok (true, out1, rb1) ∧
      out1.take 1 = [3, 4].take 1 ∧
      out1.drop 1 = [7, 8, 9].drop 1 ∧
      RingBuffer.popN 1 (⟨2, 4, [1, 2, 3, 4]⟩ : RingBuffer Nat) = .ok ([3, 4].take 1, rb1) ∧
      rb1.rindex_ = (2 + 1) % UINT_SPAN ∧
      rb1.windex_ = 4 ∧
      rb1.buf_ = [1, 2, 3, 4] ∧
      Reachable rb1 ([3, 4].drop 1) ∧
      ∃ rb2, rb1.popN rb1.size = .ok ([3, 4].drop 1, rb2) :=
  have hreach := sample_reachable
  ⟨hreach, by decide, by decide, read_oldest _ _ hreach [7, 8, 9] 1 (by decide) (by decide)⟩

/-- C4. `write` is all-or-nothing on failure. For every state and every `n` with
`n > available()`, `write(buf, n)` returns false and hands back the very same state
(`rindex_`, `windex_` and the whole backing store, hence `size()`); and whenever
`write` returns false, `n > available()`. -/
theorem write_all_or_nothing {α : Type} (rb : RingBuffer α) (buf : List α) (n : Nat) :
    (rb.available < n → rb.write buf n = .ok (false, rb)) ∧
    (∀ rb1, rb.write buf n = .ok (false, rb1) →
      rb.available < n ∧ rb1 = rb ∧ rb1.size = rb.size) := by
  constructor
  · intro hlt
    simp [RingBuffer.write, hlt]
  · intro rb1 hw
    unfold RingBuffer.write at hw
    split at hw
    · rename_i hlt
      simp only [Except.ok.injEq, Prod.mk.injEq, true_and] at hw
      subst hw
      exact ⟨hlt, rfl, rfl⟩
    · split at hw
      · cases hw
      · split at hw
        · simp at hw
        · cases hw

/-- C5. `read` is all-or-nothing on failure. For every state and every `n` with
`n > size()`, `read(out, n)` returns false and hands back the very same buffer state and
the caller array untouched; and whenever `read` returns false, `n > size()`. -/
theorem read_all_or_nothing {α : Type} (rb : RingBuffer α) (out : List α) (n : Nat) :
    (rb.size < n → rb.read out n = .ok (false, out, rb)) ∧
    (∀ out1 rb1, rb.read out n = .ok (false, out1, rb1) →
      rb.size < n ∧ out1 = out ∧ rb1 = rb) := by
  constructor
  · intro hlt
    simp [RingBuffer.read, hlt]
  · intro out1 rb1 hrd
    unfold RingBuffer.read at hrd
    split at hrd
    · rename_i hlt
      simp only [Except.ok.injEq, Prod.mk.injEq, true_and] at hrd
      obtain ⟨ho, hr⟩ := hrd
      subst ho hr
      exact ⟨hlt, rfl, rfl⟩
    · split at hrd
      · cases hrd
      · split at hrd
        · simp at hrd
        · cases hrd

/-! ## Size invariant (C6, C7) -/

theorem big_new :
    (RingBuffer.new UINT_SPAN : Except Fault (RingBuffer Nat)) =
      .ok ⟨0, 0, List.replicate UINT_SPAN 0⟩ := by
  unfold RingBuffer.new RingBuffer.capacity
  rw [Nat.mod_self]
  have hp : RingBuffer.isPowerOfTwo 0 = true := by decide
  rw [if_pos hp]
  simp only [vectorResize, List.take_nil, List.nil_append, List.length_nil, Nat.sub_zero]
  rfl

theorem big_continuousAvailable {α : Type} (rb : RingBuffer α) (hr : rb.rindex_ = 0)
    (hw : rb.windex_ = 0) (hlen : rb.buf_.length = UINT_SPAN) :
    rb.continuousAvailable = UINT_SPAN := by
  unfold RingBuffer.continuousAvailable RingBuffer.available RingBuffer.size RingBuffer.mask
  rw [hr, hw, hlen]
  decide

theorem wdata_zero {α : Type} (rb : RingBuffer α) (hw : rb.windex_ = 0) : rb.wdata = 0 := by
  unfold RingBuffer.wdata RingBuffer.mask
  rw [hw, Nat.zero_and, Nat.zero_mod]

/-- C6, counterexample. `RingBuffer(2^32)` passes the constructor's assertion (the argument
is converted to `unsigned`, giving 0). In the fresh buffer `continuousAvailable()` is
`2^32`, so `wcommit(2^32)` is within its precondition; it queues `2^32` elements and
leaves `windex_ = 0`: `size()` is 0 while `2^32` elements are queued and unread. -/
theorem size_invariant_counterexample :
    UINT_SPAN = 2 ^ 32 ∧
    Reach UINT_SPAN (⟨0, 0, List.replicate UINT_SPAN 0⟩ : RingBuffer Nat)
      (List.replicate UINT_SPAN 0) ∧
    (List.replicate UINT_SPAN (0 : Nat)).length = 2 ^ 32 ∧
    RingBuffer.size (⟨0, 0, List.replicate UINT_SPAN 0⟩ : RingBuffer Nat) = 0 ∧
    RingBuffer.size (⟨0, 0, List.replicate UINT_SPAN 0⟩ : RingBuffer Nat) ≠
      (List.replicate UINT_SPAN (0 : Nat)).length := by
  have h0 : Reach UINT_SPAN (⟨0, 0, List.replicate UINT_SPAN 0⟩ : RingBuffer Nat) [] :=
    Reach.init big_new
  have hlen : (List.replicate UINT_SPAN (0 : Nat)).length = UINT_SPAN :=
    List.length_replicate _ _
  have hca := big_continuousAvailable
    (⟨0, 0, List.replicate UINT_SPAN 0⟩ : RingBuffer Nat) rfl rfl hlen
  have h1 := Reach.wcommit UINT_SPAN h0 (Nat.le_of_eq hca.symm)
  have hst : RingBuffer.wcommit (⟨0, 0, List.replicate UINT_SPAN 0⟩ : RingBuffer Nat) UINT_SPAN
      = ⟨0, 0, List.replicate UINT_SPAN 0⟩ := by
    unfold RingBuffer.wcommit
    simp only [Nat.zero_add, Nat.mod_self]
  have hwd : RingBuffer.wdata (⟨0, 0, List.replicate UINT_SPAN 0⟩ : RingBuffer Nat) = 0 :=
    wdata_zero _ rfl
  have hq : ([] : List Nat) ++
      ((⟨0, 0, List.replicate UINT_SPAN 0⟩ : RingBuffer Nat).buf_.drop
        (RingBuffer.wdata (⟨0, 0, List.replicate UINT_SPAN 0⟩ : RingBuffer Nat))).take UINT_SPAN
      = List.replicate UINT_SPAN 0 := by
    rw [hwd, List.drop_zero, List.nil_append]
    exact List.take_of_length_le (Nat.le_of_eq hlen)
  rw [hst, hq] at h1
  have hsz : RingBuffer.size (⟨0, 0, List.replicate UINT_SPAN 0⟩ : RingBuffer Nat) = 0 := by
    unfold RingBuffer.size
    simp only [Nat.zero_add, Nat.sub_zero, Nat.mod_self]
  refine ⟨rfl, h1, hlen, hsz, ?_⟩
  rw [hsz, hlen]
  decide

/-- C6, amended. In every state reachable from `RingBuffer(c)`, `c` zero or a power of two
up to `2^31`, through `push`, `pop`, `discard`, `write`, `read`, stores into the borrowed
region with `wcommit(n)`, `n <= continuousAvailable()`, and `rcommit(n)`,
`n <= continuousSize()`, each called within its precondition, `size()` (the difference
`windex_ - rindex_` modulo `2^32`) equals the number of queued unread elements and is at
most the capacity. -/
theorem size_invariant {α : Type} [Inhabited α] (c : Nat) (hc : SupportedCapacity c)
    (rb : RingBuffer α) (q : List α) (h : Reach c rb q) :
    rb.size = (rb.windex_ + UINT_SPAN - rb.rindex_) % UINT_SPAN ∧
    rb.size = q.length ∧ rb.size ≤ rb.buf_.length ∧ rb.buf_.length = c := by
  refine ⟨rfl, ?_⟩
  rcases hc with hc | ⟨k, hk, hc⟩
  · subst hc
    have h0 := h.represents0
    rw [h0.size_zero, h0.hq, h0.hbuf]
    simp
  · subst hc
    have hk := h.represents hk
    rw [hk.size_eq, hk.hlen]
    exact ⟨rfl, hk.hq, rfl⟩

theorem size_invariant_witness :
    SupportedCapacity 4 ∧
    Reach 4 (⟨2, 4, [1, 2, 3, 4]⟩ : RingBuffer Nat) [3, 4] ∧
    (RingBuffer.size (⟨2, 4, [1, 2, 3, 4]⟩ : RingBuffer Nat) = (4 + UINT_SPAN - 2) % UINT_SPAN ∧
     RingBuffer.size (⟨2, 4, [1, 2, 3, 4]⟩ : RingBuffer Nat) = [3, 4].length ∧
     RingBuffer.size (⟨2, 4, [1, 2, 3, 4]⟩ : RingBuffer Nat) ≤ [1, 2, 3, 4].length ∧
     [1, 2, 3, 4].length = 4) :=
  ⟨Or.inr ⟨2, by decide, by decide⟩, sample_reach,
    size_invariant 4 (Or.inr ⟨2, by decide, by decide⟩) _ _ sample_reach⟩

/-- C7. In every reachable state, `size() + available()` equals the capacity, the number
of slots of the backing store (no wraparound occurs in the sum). -/
theorem size_plus_available {α : Type} [Inhabited α] (rb : RingBuffer α) (q : List α)
    (h : Reachable rb q) : rb.size + rb.available = rb.buf_.length := by
  rcases h.cases with h0 | ⟨k, hk⟩
  · rw [h0.size_zero, h0.available_zero, h0.hbuf]
    rfl
  · have := hk.hq
    rw [hk.size_eq, hk.available_eq, hk.hlen]
    omega

theorem size_plus_available_witness :
    Reachable (⟨2, 4, [1, 2, 3, 4]⟩ : RingBuffer Nat) [3, 4] ∧
    RingBuffer.size (⟨2, 4, [1, 2, 3, 4]⟩ : RingBuffer Nat) +
      RingBuffer.available (⟨2, 4, [1, 2, 3, 4]⟩ : RingBuffer Nat) = [1, 2, 3, 4].length :=
  ⟨sample_reachable, size_plus_available _ _ sample_reachable⟩

/-! ## Borrow and commit (C8, C9) -/

/-- The loop of `write` and the stores through `wdata()` set the same slots as long as
the run stays inside the wrap-free region that starts at `wdata()`. -/
theorem writeLoop_storeAll {α : Type} {k : Nat} (hk : k ≤ 31) (buf : List α) (w : Nat)
    (n : Nat) :
    ∀ (i j : Nat) (rb : RingBuffer α), rb.buf_.length = 2 ^ k → rb.windex_ = w →
      w % 2 ^ k + j + n ≤ 2 ^ k → i + n ≤ buf.length → i + n < UINT_SPAN →
      ∃ rb1, RingBuffer.storeAll (w % 2 ^ k) ((buf.drop i).take n) j rb = .ok rb1 ∧
        rb1.windex_ = w ∧
        RingBuffer.writeLoop buf n i { rb with windex_ := (w + j) % UINT_SPAN } =
          .ok { rb1 with windex_ := (w + (j + n)) % UINT_SPAN } := by
  induction n with
  | zero =>
    intro i j rb _ hw _ _ _
    exact ⟨rb, by simp [RingBuffer.storeAll], hw, by simp [RingBuffer.writeLoop]⟩
  | succ n ih =>
    intro i j rb hlen hw hj hb hi
    have hib : i < buf.length := by omega
    have hi1 : (i + 1) % UINT_SPAN = i + 1 := Nat.mod_eq_of_lt (by omega)
    have hl : (buf.drop i).take (n + 1) = buf[i] :: (buf.drop (i + 1)).take n := by
      rw [List.drop_eq_getElem_cons hib, List.take_succ_cons]
    have hslot : RingBuffer.mask { rb with windex_ := (w + j) % UINT_SPAN }
        ((w + j) % UINT_SPAN) = w % 2 ^ k + j := by
      rw [RingBuffer.mask_eq_mod _ hk (by exact hlen), UINT_SPAN_eq, wrap_mod hk,
        mod_add_of_lt (by omega)]
    obtain ⟨rb1, hst, hw1, hrun⟩ := ih (i + 1) (j + 1)
      { rb with buf_ := rb.buf_.set (w % 2 ^ k + j) buf[i] }
      (by simp [hlen]) hw (by omega) (by omega) (by omega)
    refine ⟨rb1, ?_, hw1, ?_⟩
    · rw [hl]
      simp only [RingBuffer.storeAll, RingBuffer.store]
      rw [if_pos (by omega)]
      exact hst
    · have hwj : ((w + j) % UINT_SPAN + 1) % UINT_SPAN = (w + (j + 1)) % UINT_SPAN := by
        rw [UINT_SPAN_eq]
        omega
      have hjn : w + (j + 1 + n) = w + (j + (n + 1)) := by omega
      simp only [RingBuffer.writeLoop, List.getElem?_eq_getElem hib, hslot, hi1]
      rw [if_pos (by show w % 2 ^ k + j < rb.buf_.length; omega), hwj, ← hjn]
      exact hrun

/-- C8. Borrow/commit equivalence. In every reachable state with capacity at least 1 and
for every sequence `xs` of length `m = continuousAvailable()`: the pointer `wdata()` is
slot `windex_ mod capacity`; storing `xs[j]` at the `j`-th element after it (`j < m`)
succeeds within the backing store; and calling `wcommit(m)` afterwards produces exactly
the buffer state that `write(xs, m)` returns with true. Hence the same values come out of
the subsequent pops: `size()` pops of that state return the old content followed by `xs`. -/
theorem borrow_commit_eq_write {α : Type} [Inhabited α] (rb : RingBuffer α) (q : List α)
    (h : Reachable rb q) (hcap : 1 ≤ rb.buf_.length) (xs : List α)
    (hm : xs.length = rb.continuousAvailable) :
    rb.wdata = rb.windex_ % rb.buf_.length ∧
    ∃ rb1, RingBuffer.storeAll rb.wdata xs 0 rb = .ok rb1 ∧
      rb.write xs xs.length = .ok (true, rb1.wcommit xs.length) ∧
      ∃ rb2, (rb1.wcommit xs.length).popN (rb1.wcommit xs.length).size = .ok (q ++ xs, rb2) := by
  rcases h.cases with h0 | ⟨k, hk⟩
  · rw [h0.hbuf] at hcap
    simp at hcap
  · have h1 := pow_le_half hk.hk
    have hq := hk.hq
    have hca := hk.continuousAvailable_eq
    have hwd := hk.wdata_eq
    have hspan := UINT_SPAN_eq
    have hwlt := hk.windex_lt
    have hav := hk.available_eq
    refine ⟨by rw [hwd, hk.hlen], ?_⟩
    obtain ⟨rb1, hst, hw1, hrun⟩ := writeLoop_storeAll hk.hk xs rb.windex_ xs.length 0 0 rb
      hk.hlen rfl (by omega) (by omega) (by omega)
    have hself : ({ rb with windex_ := (rb.windex_ + 0) % UINT_SPAN } : RingBuffer α) = rb := by
      have : (rb.windex_ + 0) % UINT_SPAN = rb.windex_ := Nat.mod_eq_of_lt hwlt
      rw [this]
    rw [hself] at hrun
    simp only [List.drop_zero, List.take_length, Nat.zero_add] at hst hrun
    have hcommit : rb1.wcommit xs.length
        = { rb1 with windex_ := (rb.windex_ + xs.length) % UINT_SPAN } := by
      unfold RingBuffer.wcommit
      rw [hw1]
    have hwrite : rb.write xs xs.length = .ok (true, rb1.wcommit xs.length) := by
      unfold RingBuffer.write
      rw [if_neg (by omega), if_neg (by omega), hrun, hcommit]
    refine ⟨rb1, by rw [hwd]; exact hst, hwrite, ?_⟩
    have hrep := hk.write_inv hwrite
    rw [List.take_length] at hrep
    exact hrep.drain

theorem borrow_commit_eq_write_witness :
    Reachable (⟨2, 4, [1, 2, 3, 4]⟩ : RingBuffer Nat) [3, 4] ∧
    1 ≤ [1, 2, 3, 4].length ∧
    [5, 6].length = RingBuffer.continuousAvailable (⟨2, 4, [1, 2, 3, 4]⟩ : RingBuffer Nat) ∧
    (RingBuffer.wdata (⟨2, 4, [1, 2, 3, 4]⟩ : RingBuffer Nat) = 4 % [1, 2, 3, 4].length ∧
     ∃ rb1, RingBuffer.storeAll (RingBuffer.wdata (⟨2, 4, [1, 2, 3, 4]⟩ : RingBuffer Nat))
          [5, 6] 0 (⟨2, 4, [1, 2, 3, 4]⟩ : RingBuffer Nat) = .ok rb1 ∧
       RingBuffer.write (⟨2, 4, [1, 2, 3, 4]⟩ : RingBuffer Nat) [5, 6] [5, 6].length
          = .ok (true, rb1.wcommit [5, 6].length) ∧
       ∃ rb2, (rb1.wcommit [5, 6].length).popN (rb1.wcommit [5, 6].length).size
          = .ok ([3, 4] ++ [5, 6], rb2)) :=
  ⟨sample_reachable, by decide, by decide,
    borrow_commit_eq_write _ _ sample_reachable (by decide) [5, 6] (by decide)⟩

/-- C9. `continuousSize()` and `continuousAvailable()` are exactly the wrap-free run
lengths. In every reachable state with capacity at least 1,
`continuousSize() = min(size(), capacity - rindex_ mod capacity)` and
`continuousAvailable() = min(available(), capacity - windex_ mod capacity)`; hence
`continuousSize() <= size()` and `continuousAvailable() <= available()`. For every
`j < continuousSize()` the element at absolute index `rindex_ + j` (queue position `j`)
lies in slot `(rindex_ mod capacity) + j`, which is below the capacity and is the `j`-th
element after `rdata()`; likewise the free slot of absolute index `windex_ + j`, for
`j < continuousAvailable()`, is slot `(windex_ mod capacity) + j`, below the capacity. -/
theorem continuous_runs {α : Type} [Inhabited α] (rb : RingBuffer α) (q : List α)
    (h : Reachable rb q) (hcap : 1 ≤ rb.buf_.length) :
    rb.continuousSize = min rb.size (rb.buf_.length - rb.rindex_ % rb.buf_.length) ∧
    rb.continuousAvailable =
      min rb.available (rb.buf_.length - rb.windex_ % rb.buf_.length) ∧
    rb.continuousSize ≤ rb.size ∧
    rb.continuousAvailable ≤ rb.available ∧
    (∀ j, j < rb.continuousSize →
      rb.mask ((rb.rindex_ + j) % UINT_SPAN) = rb.rindex_ % rb.buf_.length + j ∧
      rb.rindex_ % rb.buf_.length + j < rb.buf_.length ∧
      rb.rdata + j = rb.rindex_ % rb.buf_.length + j ∧
      j < q.length ∧
      rb.buf_[rb.rindex_ % rb.buf_.length + j]? = q[j]?) ∧
    (∀ j, j < rb.continuousAvailable →
      rb.mask ((rb.windex_ + j) % UINT_SPAN) = rb.windex_ % rb.buf_.length + j ∧
      rb.windex_ % rb.buf_.length + j < rb.buf_.length ∧
      rb.wdata + j = rb.windex_ % rb.buf_.length + j) := by
  rcases h.cases with h0 | ⟨k, hk⟩
  · rw [h0.hbuf] at hcap
    simp at hcap
  · have hq := hk.hq
    have hcs := hk.continuousSize_eq
    have hca := hk.continuousAvailable_eq
    have hrlt : rb.rindex_ % 2 ^ k < 2 ^ k := Nat.mod_lt _ (Nat.two_pow_pos k)
    have hwlt : rb.windex_ % 2 ^ k < 2 ^ k := Nat.mod_lt _ (Nat.two_pow_pos k)
    rw [hk.hlen, hk.size_eq, hk.available_eq]
    refine ⟨hcs, hca, by omega, by omega, ?_, ?_⟩
    · intro j hj
      have hjlt : rb.rindex_ % 2 ^ k + j < 2 ^ k := by omega
      have hmod : (rb.rindex_ + j) % 2 ^ k = rb.rindex_ % 2 ^ k + j := mod_add_of_lt hjlt
      refine ⟨by rw [hk.rslot j, hmod], hjlt, ?_, by omega, ?_⟩
      · unfold RingBuffer.rdata
        rw [RingBuffer.mask_eq_mod rb hk.hk hk.hlen]
      · rw [← hmod]
        exact hk.hslot j (by omega)
    · intro j hj
      have hjlt : rb.windex_ % 2 ^ k + j < 2 ^ k := by omega
      refine ⟨?_, hjlt, by rw [hk.wdata_eq]⟩
      rw [RingBuffer.mask_eq_mod rb hk.hk hk.hlen, UINT_SPAN_eq, wrap_mod hk.hk,
        mod_add_of_lt hjlt]

theorem continuous_runs_witness :
    Reachable (⟨2, 4, [1, 2, 3, 4]⟩ : RingBuffer Nat) [3, 4] ∧
    1 ≤ [1, 2, 3, 4].length ∧
    RingBuffer.continuousSize (⟨2, 4, [1, 2, 3, 4]⟩ : RingBuffer Nat) = 2 ∧
    RingBuffer.continuousAvailable (⟨2, 4, [1, 2, 3, 4]⟩ : RingBuffer Nat) = 2 ∧
    RingBuffer.continuousSize (⟨2, 4, [1, 2, 3, 4]⟩ : RingBuffer Nat) =
      min (RingBuffer.size (⟨2, 4, [1, 2, 3, 4]⟩ : RingBuffer Nat))
        ([1, 2, 3, 4].length - 2 % [1, 2, 3, 4].length) :=
  ⟨sample_reachable, by decide, by decide, by decide,
    (continuous_runs _ _ sample_reachable (by decide)).1⟩

/-! ## Lookahead (C10) -/

/-- C10. `peek` is a non-destructive lookahead. In every reachable state and for every
32-bit absolute index `idx` in range, that is `(idx - rindex_) mod 2^32 < size()`,
`peek(idx)` returns the element at queue position `j = (idx - rindex_) mod 2^32`, which is
the value the `(j + 1)`-th subsequent `pop()` returns; `peek(rindex())` is the oldest
element. `peek` is a `const` method: the embedding returns no state because the buffer is
the one passed in. -/
theorem peek_lookahead {α : Type} [Inhabited α] (rb : RingBuffer α) (q : List α)
    (h : Reachable rb q) (idx : Nat) (hidx : idx < UINT_SPAN)
    (hin : (idx + UINT_SPAN - rb.rindex_) % UINT_SPAN < rb.size) :
    ∃ v rb1, rb.peek idx = .ok v ∧
      q[(idx + UINT_SPAN - rb.rindex_) % UINT_SPAN]? = some v ∧
      rb.popN ((idx + UINT_SPAN - rb.rindex_) % UINT_SPAN + 1) =
        .ok (q.take ((idx + UINT_SPAN - rb.rindex_) % UINT_SPAN) ++ [v], rb1) ∧
      (idx = rb.rindex → q.head? = some v) := by
  rcases h.cases with h0 | ⟨k, hk⟩
  · rw [h0.size_zero] at hin
    omega
  · have h1 := pow_le_half hk.hk
    have hq := hk.hq
    have hr := hk.hr
    rw [hk.size_eq] at hin
    generalize hj : (idx + UINT_SPAN - rb.rindex_) % UINT_SPAN = j at hin ⊢
    have hidx2 : idx = (rb.rindex_ + j) % UINT_SPAN := by
      rw [UINT_SPAN_eq] at *
      omega
    have hget : q[j]? = some q[j] := List.getElem?_eq_getElem hin
    have hslot : rb.buf_[rb.mask idx]? = some q[j] := by
      rw [hidx2, hk.rslot j, hk.hslot j hin, hget]
    have hne : rb.empty = false := by
      rw [hk.empty_eq]
      exact decide_eq_false (by omega)
    refine ⟨q[j], { rb with rindex_ := (rb.rindex_ + (j + 1)) % UINT_SPAN },
      ?_, hget, ?_, ?_⟩
    · simp [RingBuffer.peek, hne, hslot]
    · rw [hk.popN_ok (j + 1) rb q (by omega), List.take_succ, hget]
      rfl
    · intro hi
      have hj0 : j = 0 := by
        unfold RingBuffer.rindex at hi
        rw [UINT_SPAN_eq] at *
        omega
      subst hj0
      rw [← hget]
      cases q <;> simp

theorem peek_lookahead_witness :
    Reachable (⟨2, 4, [1, 2, 3, 4]⟩ : RingBuffer Nat) [3, 4] ∧
    3 < UINT_SPAN ∧
    (3 + UINT_SPAN - 2) % UINT_SPAN < RingBuffer.size (⟨2, 4, [1, 2, 3, 4]⟩ : RingBuffer Nat) ∧
    RingBuffer.peek (⟨2, 4, [1, 2, 3, 4]⟩ : RingBuffer Nat) 3 = .ok 4 ∧
    ∃ v rb1, RingBuffer.peek (⟨2, 4, [1, 2, 3, 4]⟩ : RingBuffer Nat) 3 = .ok v ∧
      [3, 4][(3 + UINT_SPAN - 2) % UINT_SPAN]? = some v ∧
      RingBuffer.popN ((3 + UINT_SPAN - 2) % UINT_SPAN + 1)
          (⟨2, 4, [1, 2, 3, 4]⟩ : RingBuffer Nat) =
        .ok ([3, 4].take ((3 + UINT_SPAN - 2) % UINT_SPAN) ++ [v], rb1) ∧
      (3 = RingBuffer.rindex (⟨2, 4, [1, 2, 3, 4]⟩ : RingBuffer Nat) → [3, 4].head? = some v) :=
  ⟨sample_reachable, by decide, by decide, rfl,
    peek_lookahead _ _ sample_reachable 3 (by decide) (by decide)⟩

/-! ## Precondition checks (C11, C12) -/

/-- C11, counterexample. Capacity 4 after push 1, 2, 3, 4 and two pops: the queue holds
absolute indices 2 and 3. Index 0 is out of range (`(0 - 2) mod 2^32 = 2^32 - 2` is not
below `size() = 2`), yet `peek(0)` does not fail: the buffer is not empty, so the assertion
holds and the call returns the stale element 1 of slot 0. -/
theorem peek_out_of_range_counterexample :
    Reachable (⟨2, 4, [1, 2, 3, 4]⟩ : RingBuffer Nat) [3, 4] ∧
    RingBuffer.size (⟨2, 4, [1, 2, 3, 4]⟩ : RingBuffer Nat) = 2 ∧
    (0 + UINT_SPAN - 2) % UINT_SPAN = 4294967294 ∧
    ¬ ((0 + UINT_SPAN - 2) % UINT_SPAN <
        RingBuffer.size (⟨2, 4, [1, 2, 3, 4]⟩ : RingBuffer Nat)) ∧
    RingBuffer.peek (⟨2, 4, [1, 2, 3, 4]⟩ : RingBuffer Nat) 0 = .ok 1 :=
  ⟨sample_reachable, by decide, by decide, by decide, rfl⟩

/-- C11, amended. `peek` checks emptiness only. For every state and every `idx`,
`peek(idx)` fails fatally (its assertion does not hold) if and only if the buffer is
empty; with 32-bit cursors that is `size() == 0`, the case in which every index is out of
range. On a non-empty reachable buffer no 32-bit index is rejected: `peek(idx)` returns
the content of slot `idx mod capacity`. -/
theorem peek_rejects_iff_empty {α : Type} [Inhabited α] (rb : RingBuffer α) (idx : Nat) :
    (rb.peek idx = .error .assertion ↔ rb.empty = true) ∧
    (rb.rindex_ < UINT_SPAN → rb.windex_ < UINT_SPAN → (rb.empty = true ↔ rb.size = 0)) ∧
    (∀ q, Reachable rb q → rb.empty = false → idx < UINT_SPAN →
      ∃ v, rb.peek idx = .ok v ∧ rb.buf_[idx % rb.buf_.length]? = some v) := by
  refine ⟨?_, ?_, ?_⟩
  · unfold RingBuffer.peek
    cases he : rb.empty with
    | true => simp
    | false =>
      simp only [Bool.false_eq_true, if_false, iff_false]
      cases rb.buf_[rb.mask idx]? <;> simp
  · intro hr hw
    unfold RingBuffer.empty RingBuffer.size
    rw [UINT_SPAN_eq] at *
    simp only [beq_iff_eq]
    omega
  · intro q h he _
    rcases h.cases with h0 | ⟨k, hk⟩
    · rw [h0.empty_true] at he
      cases he
    · have hlt := RingBuffer.mask_lt rb hk.hk hk.hlen idx
      have hm := RingBuffer.mask_eq_mod rb hk.hk hk.hlen idx
      refine ⟨rb.buf_[rb.mask idx], ?_, ?_⟩
      · simp [RingBuffer.peek, he, List.getElem?_eq_getElem hlt]
      · rw [hk.hlen, ← hm]
        exact List.getElem?_eq_getElem hlt

/-- The scenario of the spec before any pop: capacity 4 after push 1, 2, 3, 4. -/
theorem sample_full_reach : Reach 4 (⟨0, 4, [1, 2, 3, 4]⟩ : RingBuffer Nat) [1, 2, 3, 4] := by
  have r0 : Reach 4 (⟨0, 0, [0, 0, 0, 0]⟩ : RingBuffer Nat) [] := Reach.init rfl
  have r1 : Reach 4 (⟨0, 1, [1, 0, 0, 0]⟩ : RingBuffer Nat) [1] := Reach.push 1 r0 rfl
  have r2 : Reach 4 (⟨0, 2, [1, 2, 0, 0]⟩ : RingBuffer Nat) [1, 2] := Reach.push 2 r1 rfl
  have r3 : Reach 4 (⟨0, 3, [1, 2, 3, 0]⟩ : RingBuffer Nat) [1, 2, 3] := Reach.push 3 r2 rfl
  exact Reach.push 4 r3 rfl

theorem sample_full_reachable :
    Reachable (⟨0, 4, [1, 2, 3, 4]⟩ : RingBuffer Nat) [1, 2, 3, 4] :=
  ⟨4, Or.inr ⟨2, by decide, by decide⟩, sample_full_reach⟩

/-- C12. Scalar preconditions are checked exactly. In every reachable state, `full()` is
`size() == capacity` and `empty()` is `rindex_ == windex_`; `push(v)` fails fatally if and
only if `full()`, and otherwise returns with `windex_` advanced by 1 (modulo `2^32`) and
`rindex_` unchanged; `pop()` fails fatally if and only if `empty()`, and otherwise returns
with `rindex_` advanced by 1 (modulo `2^32`) and `windex_` and the backing store
unchanged. -/
theorem scalar_preconditions {α : Type} [Inhabited α] (rb : RingBuffer α) (q : List α)
    (h : Reachable rb q) (v : α) :
    (rb.full = true ↔ rb.size = rb.buf_.length) ∧
    (rb.empty = true ↔ rb.rindex_ = rb.windex_) ∧
    (rb.push v = .error .assertion ↔ rb.full = true) ∧
    (rb.full = false → ∃ rb1, rb.push v = .ok rb1 ∧
      rb1.windex_ = (rb.windex_ + 1) % UINT_SPAN ∧ rb1.rindex_ = rb.rindex_) ∧
    (rb.pop = .error .assertion ↔ rb.empty = true) ∧
    (rb.empty = false → ∃ x rb1, rb.pop = .ok (x, rb1) ∧
      rb1.rindex_ = (rb.rindex_ + 1) % UINT_SPAN ∧ rb1.windex_ = rb.windex_ ∧
      rb1.buf_ = rb.buf_) := by
  have hpush : (rb.full = false → ∃ rb1, rb.push v = .ok rb1 ∧
      rb1.windex_ = (rb.windex_ + 1) % UINT_SPAN ∧ rb1.rindex_ = rb.rindex_) := by
    intro hf
    rcases h.cases with h0 | ⟨k, hk⟩
    · rw [h0.full_true] at hf
      cases hf
    · have hq : q.length < 2 ^ k := by
        have := hk.hq
        rw [hk.full_eq] at hf
        simp only [decide_eq_false_iff_not] at hf
        omega
      exact ⟨_, hk.push_ok hq v, rfl, rfl⟩
  have hpop : (rb.empty = false → ∃ x rb1, rb.pop = .ok (x, rb1) ∧
      rb1.rindex_ = (rb.rindex_ + 1) % UINT_SPAN ∧ rb1.windex_ = rb.windex_ ∧
      rb1.buf_ = rb.buf_) := by
    intro he
    rcases h.cases with h0 | ⟨k, hk⟩
    · rw [h0.empty_true] at he
      cases he
    · cases q with
      | nil =>
        rw [hk.empty_eq] at he
        simp at he
      | cons x q1 => exact ⟨x, _, hk.pop_ok x q1 rfl, rfl, rfl, rfl⟩
  refine ⟨by simp [RingBuffer.full], by simp [RingBuffer.empty], ?_, hpush, ?_, hpop⟩
  · constructor
    · intro hp
      cases hf : rb.full with
      | true => rfl
      | false =>
        obtain ⟨rb1, hok, _⟩ := hpush hf
        rw [hok] at hp
        cases hp
    · intro hf
      simp [RingBuffer.push, hf]
  · constructor
    · intro hp
      cases he : rb.empty with
      | true => rfl
      | false =>
        obtain ⟨x, rb1, hok, _⟩ := hpop he
        rw [hok] at hp
        cases hp
    · intro he
      simp [RingBuffer.pop, he]

theorem scalar_preconditions_witness :
    Reachable (⟨0, 4, [1, 2, 3, 4]⟩ : RingBuffer Nat) [1, 2, 3, 4] ∧
    RingBuffer.full (⟨0, 4, [1, 2, 3, 4]⟩ : RingBuffer Nat) = true ∧
    RingBuffer.push (⟨0, 4, [1, 2, 3, 4]⟩ : RingBuffer Nat) 5 = .error .assertion ∧
    (RingBuffer.push (⟨0, 4, [1, 2, 3, 4]⟩ : RingBuffer Nat) 5 = .error .assertion ↔
      RingBuffer.full (⟨0, 4, [1, 2, 3, 4]⟩ : RingBuffer Nat) = true) :=
  ⟨sample_full_reachable, rfl, rfl,
    (scalar_preconditions _ _ sample_full_reachable 5).2.2.1⟩

/-! ## Capacity (C13, C17) -/

theorem isPowerOfTwo_zero : RingBuffer.isPowerOfTwo 0 = true := by decide

theorem capacity_length {α : Type} [Inhabited α] (rb rb1 : RingBuffer α) (n : Nat)
    (h : rb.capacity n = .ok rb1) :
    rb1.rindex_ = rb.rindex_ ∧ rb1.windex_ = rb.windex_ ∧ rb1.buf_.length = n := by
  unfold RingBuffer.capacity at h
  split at h
  · simp only [Except.ok.injEq] at h
    subst h
    refine ⟨rfl, rfl, ?_⟩
    simp only [vectorResize, List.length_append, List.length_take, List.length_replicate]
    omega
  · cases h

theorem span_plus_four_mod : (UINT_SPAN + 4) % UINT_SPAN = 4 := by decide

theorem span_plus_four_not_pow : ¬ ∃ k, UINT_SPAN + 4 = 2 ^ k := by
  rintro ⟨k, hk⟩
  rw [UINT_SPAN_eq] at hk
  rcases Nat.lt_or_ge k 33 with h | h
  · have h1 : 2 ^ k ≤ 2 ^ 32 := Nat.pow_le_pow_right (by norm_num) (by omega)
    norm_num at h1
    omega
  · have h1 : 2 ^ 33 ≤ 2 ^ k := Nat.pow_le_pow_right (by norm_num) h
    norm_num at h1
    omega

theorem land_complement (n y : Nat) (hy : y < 2 ^ n) : y &&& (2 ^ n - (y + 1)) = 0 := by
  apply Nat.eq_of_testBit_eq
  intro i
  simp only [Nat.testBit_and, Nat.testBit_two_pow_sub_succ hy, Nat.zero_testBit]
  cases y.testBit i <;> simp

theorem pow_of_land_neg (w : Nat) :
    ∀ x, 0 < x → x < 2 ^ w → x &&& (2 ^ w - x) = x → ∃ k, k < w ∧ x = 2 ^ k := by
  induction w with
  | zero =>
    intro x hx hlt _
    simp at hlt
    omega
  | succ w ih =>
    intro x hx hlt h
    have hpow : 2 ^ (w + 1) = 2 * 2 ^ w := by rw [Nat.pow_succ, Nat.mul_comm]
    have hdiv : x / 2 &&& (2 ^ (w + 1) - x) / 2 = x / 2 := by
      rw [← Nat.and_div_two, h]
    rcases Nat.mod_two_eq_zero_or_one x with he | ho
    · have h2 : (2 ^ (w + 1) - x) / 2 = 2 ^ w - x / 2 := by omega
      rw [h2] at hdiv
      obtain ⟨k, hk, hxk⟩ := ih (x / 2) (by omega) (by omega) hdiv
      refine ⟨k + 1, by omega, ?_⟩
      rw [Nat.pow_succ, ← hxk]
      omega
    · have h2 : (2 ^ (w + 1) - x) / 2 = 2 ^ w - (x / 2 + 1) := by omega
      rw [h2, land_complement w (x / 2) (by omega)] at hdiv
      exact ⟨0, by omega, by simp; omega⟩

/-- On `unsigned` values `isPowerOfTwo` accepts exactly zero and the powers of two. -/
theorem isPowerOfTwo_iff (x : Nat) (hx : x < UINT_SPAN) :
    RingBuffer.isPowerOfTwo x = true ↔ x = 0 ∨ ∃ k, k ≤ 31 ∧ x = 2 ^ k := by
  constructor
  · intro h
    by_cases h0 : x = 0
    · exact Or.inl h0
    · right
      unfold RingBuffer.isPowerOfTwo at h
      rw [UINT_SPAN_eq] at *
      have hneg : (4294967296 - 1 - x + 1) % 4294967296 = 2 ^ 32 - x := by
        norm_num
        omega
      rw [hneg] at h
      obtain ⟨k, hk, hxk⟩ := pow_of_land_neg 32 x (by omega) (by norm_num; omega)
        (by simpa using h)
      exact ⟨k, by omega, hxk⟩
  · rintro (h0 | ⟨k, hk, hxk⟩)
    · subst h0
      decide
    · have := isPowerOfTwo_pow hk
      rw [Nat.mod_eq_of_lt (by rw [← hxk]; exact hx), ← hxk] at this
      exact this

/-- C13. On the `unsigned` range the check is exact: for every `n < 2^32`, `capacity(n)`
fails its assertion if and only if `n` is neither zero nor a power of two, and when it
returns the backing store has exactly `n` slots. The failing input lies above that range:
with a 64-bit `size_t`, `capacity(2^32 + 4)` does not fail, because the argument reaches
`isPowerOfTwo` narrowed to `unsigned`, that is as 4; the backing store is resized to
`2^32 + 4` slots although `2^32 + 4` is neither zero nor a power of two. The same holds
for the constructor. -/
theorem capacity_accepts_non_power {α : Type} [Inhabited α] :
    (∀ (rb : RingBuffer α) (n : Nat), n < UINT_SPAN →
      (rb.capacity n = .error .assertion ↔ ¬ (n = 0 ∨ ∃ k, n = 2 ^ k)) ∧
      (∀ rb1, rb.capacity n = .ok rb1 → rb1.buf_.length = n)) ∧
    (¬ ∃ k, UINT_SPAN + 4 = 2 ^ k) ∧ UINT_SPAN + 4 ≠ 0 ∧
    (∀ rb : RingBuffer α, ∃ rb1, rb.capacity (UINT_SPAN + 4) = .ok rb1 ∧
      rb1.buf_.length = UINT_SPAN + 4) ∧
    (∃ rb1 : RingBuffer α, RingBuffer.new (UINT_SPAN + 4) = .ok rb1 ∧
      rb1.buf_.length = UINT_SPAN + 4) := by
  have hcap : ∀ rb : RingBuffer α, ∃ rb1, rb.capacity (UINT_SPAN + 4) = .ok rb1 ∧
      rb1.buf_.length = UINT_SPAN + 4 := by
    intro rb
    have hp : RingBuffer.isPowerOfTwo ((UINT_SPAN + 4) % UINT_SPAN) = true := by
      rw [span_plus_four_mod]
      decide
    have hok : rb.capacity (UINT_SPAN + 4)
        = .ok { rb with buf_ := vectorResize rb.buf_ (UINT_SPAN + 4) } := by
      unfold RingBuffer.capacity
      rw [if_pos hp]
    exact ⟨_, hok, (capacity_length rb _ _ hok).2.2⟩
  refine ⟨?_, span_plus_four_not_pow, by rw [UINT_SPAN_eq]; omega, hcap, hcap _⟩
  intro rb n hn
  have hiff := isPowerOfTwo_iff n hn
  have hbound : (∃ k, n = 2 ^ k) ↔ ∃ k, k ≤ 31 ∧ n = 2 ^ k := by
    constructor
    · rintro ⟨k, hk⟩
      refine ⟨k, ?_, hk⟩
      by_contra hc
      have h1 : 2 ^ 32 ≤ 2 ^ k := Nat.pow_le_pow_right (by norm_num) (by omega)
      rw [UINT_SPAN_eq] at hn
      norm_num at h1
      omega
    · rintro ⟨k, _, hk⟩
      exact ⟨k, hk⟩
  refine ⟨?_, fun rb1 h => (capacity_length rb rb1 n h).2.2⟩
  unfold RingBuffer.capacity
  rw [Nat.mod_eq_of_lt hn, hbound, ← hiff]
  cases RingBuffer.isPowerOfTwo n <;> simp

/-- C17. Resizing keeps the cursors and can break the slot mapping. For every state and
every power of two `2^k`, `capacity(2^k)` returns with `rindex_` and `windex_` unchanged
and a backing store of `2^k` slots. And there is a reachable non-empty buffer (capacity 4
after push 1, 2, 3, 4 and two pops, holding 3 and 4) for which `capacity(2)` leaves the
element of absolute index 2 outside slot `2 & 1`, so that `pop()` returns 1 where it
returned 3 before the resize, and for which `capacity(1)` leaves `size()` above the new
capacity. -/
theorem resize_keeps_cursors {α : Type} [Inhabited α] (rb : RingBuffer α) (k : Nat) :
    (∃ rb1, rb.capacity (2 ^ k) = .ok rb1 ∧ rb1.rindex_ = rb.rindex_ ∧
      rb1.windex_ = rb.windex_ ∧ rb1.buf_.length = 2 ^ k) ∧
    (Reachable (⟨2, 4, [1, 2, 3, 4]⟩ : RingBuffer Nat) [3, 4] ∧
     RingBuffer.capacity (⟨2, 4, [1, 2, 3, 4]⟩ : RingBuffer Nat) (2 ^ 1) = .ok ⟨2, 4, [1, 2]⟩ ∧
     RingBuffer.pop (⟨2, 4, [1, 2, 3, 4]⟩ : RingBuffer Nat) = .ok (3, ⟨3, 4, [1, 2, 3, 4]⟩) ∧
     RingBuffer.mask (⟨2, 4, [1, 2]⟩ : RingBuffer Nat) 2 = 0 ∧
     ([1, 2] : List Nat)[0]? ≠ ([3, 4] : List Nat)[0]? ∧
     RingBuffer.pop (⟨2, 4, [1, 2]⟩ : RingBuffer Nat) = .ok (1, ⟨3, 4, [1, 2]⟩) ∧
     RingBuffer.capacity (⟨2, 4, [1, 2, 3, 4]⟩ : RingBuffer Nat) (2 ^ 0) = .ok ⟨2, 4, [1]⟩ ∧
     RingBuffer.size (⟨2, 4, [1]⟩ : RingBuffer Nat) = 2 ∧
     (⟨2, 4, [1]⟩ : RingBuffer Nat).buf_.length < RingBuffer.size (⟨2, 4, [1]⟩ : RingBuffer Nat)) := by
  constructor
  · have hp : RingBuffer.isPowerOfTwo (2 ^ k % UINT_SPAN) = true := by
      rcases Nat.lt_or_ge k 32 with h | h
      · exact isPowerOfTwo_pow (by omega)
      · have hd : UINT_SPAN ∣ 2 ^ k := by
          unfold UINT_SPAN
          exact pow_dvd_pow 2 h
        rw [Nat.mod_eq_zero_of_dvd hd]
        exact isPowerOfTwo_zero
    have hok : rb.capacity (2 ^ k) = .ok { rb with buf_ := vectorResize rb.buf_ (2 ^ k) } := by
      unfold RingBuffer.capacity
      rw [if_pos hp]
    exact ⟨_, hok, capacity_length rb _ _ hok⟩
  · exact ⟨sample_reachable, rfl, rfl, by decide, by decide, rfl, rfl, by decide, by decide⟩

/-! ## Discard (C14) -/

/-- C14. `discard` drops everything in one step. For every state, after `discard()` the
read cursor equals the previous `windex_`, `size() == 0` and `empty()` holds, while
`windex_` and the backing store (hence the capacity) are unchanged; `available()` is then
the capacity whenever the capacity is a `size_t` value, in particular in every reachable
state, and the state after `discard()` is reachable with nothing queued. -/
theorem discard_drops_all {α : Type} [Inhabited α] (rb : RingBuffer α) :
    rb.discard.rindex_ = rb.windex_ ∧
    rb.discard.size = 0 ∧
    rb.discard.empty = true ∧
    rb.discard.windex_ = rb.windex_ ∧
    rb.discard.buf_ = rb.buf_ ∧
    (rb.buf_.length < SIZE_SPAN → rb.discard.available = rb.buf_.length) ∧
    (∀ q, Reachable rb q →
      Reachable rb.discard [] ∧ rb.discard.available = rb.discard.buf_.length) := by
  have hsz : rb.discard.size = 0 := by
    unfold RingBuffer.size RingBuffer.discard
    simp
  have hav : rb.buf_.length < SIZE_SPAN → rb.discard.available = rb.buf_.length := by
    intro hlt
    unfold RingBuffer.available
    rw [hsz]
    show (rb.buf_.length + SIZE_SPAN - 0) % SIZE_SPAN = rb.buf_.length
    rw [Nat.sub_zero, Nat.add_mod_right]
    exact Nat.mod_eq_of_lt hlt
  refine ⟨rfl, hsz, by simp [RingBuffer.empty, RingBuffer.discard], rfl, rfl, hav, ?_⟩
  intro q h
  have hlen : rb.buf_.length < SIZE_SPAN := by
    rw [SIZE_SPAN_eq]
    rcases h.cases with h0 | ⟨k, hk⟩
    · rw [h0.hbuf]
      simp
    · have := pow_le_half hk.hk
      rw [hk.hlen]
      omega
  obtain ⟨c, hc, hr⟩ := h
  exact ⟨⟨c, hc, hr.discard⟩, hav hlen⟩

/-! ## Cursor wraparound (C15) -/

theorem admissible_append {α : Type} (pre post : List (Call α)) :
    ∀ rb : RingBuffer α, admissible rb (pre ++ post) = true → admissible rb pre = true := by
  induction pre with
  | nil => intro _ _; rfl
  | cons c cs ih =>
    intro rb h
    cases c with
    | push v =>
      simp only [List.cons_append, admissible, Bool.and_eq_true] at h ⊢
      refine ⟨h.1, ?_⟩
      have h2 := h.2
      cases hp : rb.push v with
      | error f => rfl
      | ok rb1 =>
        rw [hp] at h2
        exact ih rb1 h2
    | pop =>
      simp only [List.cons_append, admissible, Bool.and_eq_true] at h ⊢
      refine ⟨h.1, ?_⟩
      have h2 := h.2
      cases hp : rb.pop with
      | error f => rfl
      | ok res =>
        rw [hp] at h2
        exact ih res.2 h2

theorem runCalls_state {α : Type} {k : Nat} (cs : List (Call α)) :
    ∀ (rb : RingBuffer α) (q : List α), Represents k rb q → admissible rb cs = true →
      ∃ rbN, runCalls rb cs = .ok (fifoCalls q cs, rbN) ∧ Represents k rbN (fifoState q cs) := by
  induction cs with
  | nil => intro rb q h _; exact ⟨rb, rfl, h⟩
  | cons c cs ih =>
    intro rb q h hadm
    cases c with
    | push v =>
      simp only [admissible, Bool.and_eq_true, Bool.not_eq_true'] at hadm
      have hq : q.length < 2 ^ k := by
        have hf := hadm.1
        rw [h.full_eq] at hf
        have := h.hq
        simp only [decide_eq_false_iff_not] at hf
        omega
      have hp := h.push_ok hq v
      have hadm2 := hadm.2
      rw [hp] at hadm2
      obtain ⟨rbN, hrun, hrep⟩ := ih _ _ (h.put hq v) hadm2
      exact ⟨rbN, by simp only [runCalls, hp, fifoCalls]; exact hrun, hrep⟩
    | pop =>
      simp only [admissible, Bool.and_eq_true, Bool.not_eq_true'] at hadm
      cases q with
      | nil =>
        have he := hadm.1
        rw [h.empty_eq] at he
        simp at he
      | cons x q1 =>
        have hp := h.pop_ok x q1 rfl
        have hadm2 := hadm.2
        rw [hp] at hadm2
        obtain ⟨rbN, hrun, hrep⟩ := ih _ _ (h.take1 x q1 rfl).2 hadm2
        exact ⟨rbN, by simp [runCalls, hp, fifoCalls, hrun], hrep⟩

/-- C15. The cursors may wrap at the 32-bit width without breaking the queue. For every
capacity `2^k` with `k <= 31`, every 32-bit start value `s` and every backing store of
`2^k` slots, from the empty state `rindex_ = windex_ = s` every sequence of `push`/`pop`
calls in which no push is issued while `full()` and no pop while `empty()` returns
normally with the pops equal to the reference FIFO queue's, and after each step (after
every initial part of the sequence) `size()` equals the number of queued elements and is
at most the capacity. Nothing is assumed about `windex_` staying above `rindex_`. -/
theorem cursor_wrap_fifo {α : Type} (k : Nat) (hk : k ≤ 31) (s : Nat) (hs : s < UINT_SPAN)
    (buf : List α) (hbuf : buf.length = 2 ^ k) (cs : List (Call α))
    (hadm : admissible (⟨s, s, buf⟩ : RingBuffer α) cs = true) :
    (∃ rbN, runCalls (⟨s, s, buf⟩ : RingBuffer α) cs = .ok (fifoCalls [] cs, rbN)) ∧
    (∀ pre post, cs = pre ++ post →
      ∃ rb, runCalls (⟨s, s, buf⟩ : RingBuffer α) pre = .ok (fifoCalls [] pre, rb) ∧
        rb.size = (fifoState [] pre).length ∧ rb.size ≤ rb.buf_.length ∧
        rb.buf_.length = 2 ^ k) := by
  have h0 : Represents k (⟨s, s, buf⟩ : RingBuffer α) [] := by
    refine ⟨hk, hbuf, hs, ?_, by simp, by simp⟩
    show s = (s + 0) % UINT_SPAN
    rw [Nat.add_zero, Nat.mod_eq_of_lt hs]
  constructor
  · obtain ⟨rbN, hrun, _⟩ := runCalls_state cs _ _ h0 hadm
    exact ⟨rbN, hrun⟩
  · intro pre post hcs
    subst hcs
    obtain ⟨rb, hrun, hrep⟩ := runCalls_state pre _ _ h0 (admissible_append pre post _ hadm)
    refine ⟨rb, hrun, hrep.size_eq, ?_, hrep.hlen⟩
    rw [hrep.size_eq, hrep.hlen]
    exact hrep.hq

theorem cursor_wrap_fifo_witness :
    2 ≤ 31 ∧ 4294967295 < UINT_SPAN ∧ [0, 0, 0, 0].length = 2 ^ 2 ∧
    admissible (⟨4294967295, 4294967295, [0, 0, 0, 0]⟩ : RingBuffer Nat)
      [.push 7, .push 8, .pop, .pop] = true ∧
    runCalls (⟨4294967295, 4294967295, [0, 0, 0, 0]⟩ : RingBuffer Nat) [.push 7, .push 8]
      = .ok ([], ⟨4294967295, 1, [8, 0, 0, 7]⟩) ∧
    RingBuffer.size (⟨4294967295, 1, [8, 0, 0, 7]⟩ : RingBuffer Nat) = 2 ∧
    runCalls (⟨4294967295, 4294967295, [0, 0, 0, 0]⟩ : RingBuffer Nat)
      [.push 7, .push 8, .pop, .pop] = .ok ([7, 8], ⟨1, 1, [8, 0, 0, 7]⟩) ∧
    ((∃ rbN, runCalls (⟨4294967295, 4294967295, [0, 0, 0, 0]⟩ : RingBuffer Nat)
        [.push 7, .push 8, .pop, .pop]
        = .ok (fifoCalls [] [.push 7, .push 8, .pop, .pop], rbN)) ∧
     (∀ pre post, [Call.push 7, .push 8, .pop, .pop] = pre ++ post →
        ∃ rb, runCalls (⟨4294967295, 4294967295, [0, 0, 0, 0]⟩ : RingBuffer Nat) pre
            = .ok (fifoCalls [] pre, rb) ∧
          rb.size = (fifoState [] pre).length ∧ rb.size ≤ rb.buf_.length ∧
          rb.buf_.length = 2 ^ 2)) :=
  ⟨by decide, by decide, rfl, rfl, rfl, by decide, rfl,
    cursor_wrap_fifo 2 (by decide) 4294967295 (by decide) [0, 0, 0, 0] rfl _ rfl⟩

/-! ## Zero capacity (C16) -/

theorem runBulk_zero {α : Type} (cs : List (BulkCall α)) :
    ∀ rb : RingBuffer α, Represents0 rb [] →
      ∃ rb1, runBulk rb cs = .ok rb1 ∧ Represents0 rb1 [] := by
  induction cs with
  | nil => intro rb h; exact ⟨rb, rfl, h⟩
  | cons c cs ih =>
    intro rb h
    cases c with
    | discard =>
      have hd : Represents0 rb.discard [] := by
        refine ⟨h.hbuf, ?_, rfl, rfl⟩
        show rb.windex_ < UINT_SPAN
        rw [h.hw]
        exact h.hr
      obtain ⟨rb1, hrun, hrep⟩ := ih _ hd
      exact ⟨rb1, by simp only [runBulk]; exact hrun, hrep⟩
    | write buf n =>
      obtain ⟨rb1, hrun, hrep⟩ := ih _ h
      have hw : ∃ b, rb.write buf n = .ok (b, rb) := by
        have hav := h.available_zero
        by_cases hn : n = 0
        · subst hn
          exact ⟨true, by simp [RingBuffer.write, RingBuffer.writeLoop, UINT_SPAN_eq]⟩
        · exact ⟨false, by
            unfold RingBuffer.write
            rw [if_pos (by omega)]⟩
      obtain ⟨b, hw⟩ := hw
      exact ⟨rb1, by simp only [runBulk, hw]; exact hrun, hrep⟩
    | read out n =>
      obtain ⟨rb1, hrun, hrep⟩ := ih _ h
      have hr : ∃ b, rb.read out n = .ok (b, out, rb) := by
        have hsz := h.size_zero
        by_cases hn : n = 0
        · subst hn
          exact ⟨true, by simp [RingBuffer.read, RingBuffer.readLoop, UINT_SPAN_eq]⟩
        · exact ⟨false, by
            unfold RingBuffer.read
            rw [if_pos (by omega)]⟩
      obtain ⟨b, hr⟩ := hr
      exact ⟨rb1, by simp only [runBulk, hr]; exact hrun, hrep⟩

/-- C16. Zero capacity is a degenerate always-full, always-empty buffer. The
default-constructed buffer (capacity 0) is built without fault, and after any sequence of
`discard`, `write` and `read` calls on it (none of which faults) the store has no slots,
`empty()` and `full()` are both true, `size()`, `available()`, `continuousSize()` and
`continuousAvailable()` are all 0, `write(buf, n)` and `read(out, n)` return false for
every `n >= 1` and true for `n == 0`, always leaving the state as it is, and `push` and
`pop` both fail their assertion. -/
theorem zero_capacity {α : Type} [Inhabited α] (cs : List (BulkCall α)) :
    ∃ rb0 rb : RingBuffer α, RingBuffer.new 0 = .ok rb0 ∧ runBulk rb0 cs = .ok rb ∧
      rb.buf_.length = 0 ∧
      rb.empty = true ∧ rb.full = true ∧
      rb.size = 0 ∧ rb.available = 0 ∧
      rb.continuousSize = 0 ∧ rb.continuousAvailable = 0 ∧
      (∀ buf n, 1 ≤ n → rb.write buf n = .ok (false, rb)) ∧
      (∀ buf, rb.write buf 0 = .ok (true, rb)) ∧
      (∀ out n, 1 ≤ n → rb.read out n = .ok (false, out, rb)) ∧
      (∀ out, rb.read out 0 = .ok (true, out, rb)) ∧
      (∀ v, rb.push v = .error .assertion) ∧
      rb.pop = .error .assertion := by
  have hnew : (RingBuffer.new 0 : Except Fault (RingBuffer α)) = .ok ⟨0, 0, []⟩ := by
    unfold RingBuffer.new RingBuffer.capacity
    rw [Nat.zero_mod, if_pos isPowerOfTwo_zero]
    simp [vectorResize]
  have h0 : Represents0 (⟨0, 0, []⟩ : RingBuffer α) [] :=
    ⟨rfl, by simp [UINT_SPAN_eq], rfl, rfl⟩
  obtain ⟨rb, hrun, h⟩ := runBulk_zero cs _ h0
  have hav := h.available_zero
  have hsz := h.size_zero
  refine ⟨_, rb, hnew, hrun, by simp [h.hbuf], h.empty_true, h.full_true, hsz, hav,
    h.continuousSize_zero, h.continuousAvailable_zero, ?_, ?_, ?_, ?_, ?_, ?_⟩
  · intro buf n hn
    unfold RingBuffer.write
    rw [if_pos (by omega)]
  · intro buf
    simp [RingBuffer.write, RingBuffer.writeLoop, UINT_SPAN_eq, hav]
  · intro out n hn
    unfold RingBuffer.read
    rw [if_pos (by omega)]
  · intro out
    simp [RingBuffer.read, RingBuffer.readLoop, UINT_SPAN_eq, hsz]
  · intro v
    simp [RingBuffer.push, h.full_true]
  · simp [RingBuffer.pop, h.empty_true]

/-! ## Two borrow rounds (C18) -/

theorem Represents.borrowed_length {α : Type} {k : Nat} {rb : RingBuffer α} {q : List α}
    (h : Represents k rb q) {n : Nat} (hn : n ≤ rb.continuousAvailable) :
    ((rb.buf_.drop rb.wdata).take n).length = n := by
  have hca := h.continuousAvailable_eq
  have hwd := h.wdata_eq
  have hq := h.hq
  have hwlt : rb.windex_ % 2 ^ k < 2 ^ k := Nat.mod_lt _ (Nat.two_pow_pos k)
  simp [h.hlen]
  omega

theorem mod_add_compl {w c : Nat} (hc : 0 < c) : (w + (c - w % c)) % c = 0 := by
  have hlt : w % c < c := Nat.mod_lt _ hc
  rw [← Nat.mod_add_mod, show w % c + (c - w % c) = c by omega, Nat.mod_self]

/-- C18. At most two borrow/commit rounds cover the whole free (or unread) space. In every
reachable state with capacity at least 1, `continuousAvailable()` plus
`continuousAvailable()` evaluated after `wcommit` of the first equals `available()` of the
original state, and after the second commit the buffer is full; symmetrically,
`continuousSize()` plus `continuousSize()` after `rcommit` of the first equals `size()`,
and after the second commit the buffer is empty. -/
theorem two_rounds {α : Type} [Inhabited α] (rb : RingBuffer α) (q : List α)
    (h : Reachable rb q) (hcap : 1 ≤ rb.buf_.length) :
    rb.continuousAvailable + (rb.wcommit rb.continuousAvailable).continuousAvailable
      = rb.available ∧
    ((rb.wcommit rb.continuousAvailable).wcommit
      (rb.wcommit rb.continuousAvailable).continuousAvailable).full = true ∧
    rb.continuousSize + (rb.rcommit rb.continuousSize).continuousSize = rb.size ∧
    ((rb.rcommit rb.continuousSize).rcommit
      (rb.rcommit rb.continuousSize).continuousSize).empty = true := by
  rcases h.cases with h0 | ⟨k, hk⟩
  · rw [h0.hbuf] at hcap
    simp at hcap
  · have hq := hk.hq
    have hc : 0 < 2 ^ k := Nat.two_pow_pos k
    have hrlt : rb.rindex_ % 2 ^ k < 2 ^ k := Nat.mod_lt _ hc
    have hwlt : rb.windex_ % 2 ^ k < 2 ^ k := Nat.mod_lt _ hc
    -- the write side
    have ha1 := hk.continuousAvailable_eq
    have hw1 := hk.wcommit_inv (Nat.le_refl rb.continuousAvailable)
    have hl1 := hk.borrowed_length (Nat.le_refl rb.continuousAvailable)
    have ha2 := hw1.continuousAvailable_eq
    have hwi : (rb.wcommit rb.continuousAvailable).windex_ % 2 ^ k
        = (rb.windex_ + rb.continuousAvailable) % 2 ^ k := by
      show (rb.windex_ + rb.continuousAvailable) % UINT_SPAN % 2 ^ k = _
      rw [UINT_SPAN_eq, wrap_mod hk.hk]
    have hw0 : rb.continuousAvailable = 2 ^ k - rb.windex_ % 2 ^ k →
        (rb.windex_ + rb.continuousAvailable) % 2 ^ k = 0 := by
      intro he
      rw [he]
      exact mod_add_compl hc
    rw [hwi, List.length_append, hl1] at ha2
    have hsum : rb.continuousAvailable +
        (rb.wcommit rb.continuousAvailable).continuousAvailable = 2 ^ k - q.length := by
      by_cases he : rb.continuousAvailable = 2 ^ k - rb.windex_ % 2 ^ k
      · have := hw0 he
        omega
      · omega
    have hw2 := hw1.wcommit_inv
      (Nat.le_refl (rb.wcommit rb.continuousAvailable).continuousAvailable)
    have hl2 := hw1.borrowed_length
      (Nat.le_refl (rb.wcommit rb.continuousAvailable).continuousAvailable)
    -- the read side
    have hs1 := hk.continuousSize_eq
    have hr1 := hk.rcommit_inv (Nat.le_refl rb.continuousSize)
    have hs2 := hr1.continuousSize_eq
    have hri : (rb.rcommit rb.continuousSize).rindex_ % 2 ^ k
        = (rb.rindex_ + rb.continuousSize) % 2 ^ k := by
      show (rb.rindex_ + rb.continuousSize) % UINT_SPAN % 2 ^ k = _
      rw [UINT_SPAN_eq, wrap_mod hk.hk]
    have hr0 : rb.continuousSize = 2 ^ k - rb.rindex_ % 2 ^ k →
        (rb.rindex_ + rb.continuousSize) % 2 ^ k = 0 := by
      intro he
      rw [he]
      exact mod_add_compl hc
    rw [hri, List.length_drop] at hs2
    have hsum2 : rb.continuousSize + (rb.rcommit rb.continuousSize).continuousSize
        = q.length := by
      by_cases he : rb.continuousSize = 2 ^ k - rb.rindex_ % 2 ^ k
      · have := hr0 he
        omega
      · omega
    have hr2 := hr1.rcommit_inv (Nat.le_refl (rb.rcommit rb.continuousSize).continuousSize)
    refine ⟨by rw [hsum, hk.available_eq], ?_, by rw [hsum2, hk.size_eq], ?_⟩
    · rw [hw2.full_eq]
      simp only [List.length_append, hl1, hl2, decide_eq_true_eq]
      omega
    · rw [hr2.empty_eq]
      simp only [List.length_drop, decide_eq_true_eq]
      omega

/-- Capacity 4 after push 1, 2, 3 and one pop: the free slots are slot 3 and slot 0. -/
theorem sample_split_reachable :
    Reachable (⟨1, 3, [1, 2, 3, 0]⟩ : RingBuffer Nat) [2, 3] := by
  have r0 : Reach 4 (⟨0, 0, [0, 0, 0, 0]⟩ : RingBuffer Nat) [] := Reach.init rfl
  have r1 : Reach 4 (⟨0, 1, [1, 0, 0, 0]⟩ : RingBuffer Nat) [1] := Reach.push 1 r0 rfl
  have r2 : Reach 4 (⟨0, 2, [1, 2, 0, 0]⟩ : RingBuffer Nat) [1, 2] := Reach.push 2 r1 rfl
  have r3 : Reach 4 (⟨0, 3, [1, 2, 3, 0]⟩ : RingBuffer Nat) [1, 2, 3] := Reach.push 3 r2 rfl
  exact ⟨4, Or.inr ⟨2, by decide, by decide⟩, Reach.pop 1 r3 rfl⟩

theorem two_rounds_witness :
    Reachable (⟨1, 3, [1, 2, 3, 0]⟩ : RingBuffer Nat) [2, 3] ∧
    1 ≤ [1, 2, 3, 0].length ∧
    RingBuffer.available (⟨1, 3, [1, 2, 3, 0]⟩ : RingBuffer Nat) = 2 ∧
    RingBuffer.continuousAvailable (⟨1, 3, [1, 2, 3, 0]⟩ : RingBuffer Nat) = 1 ∧
    RingBuffer.continuousAvailable
      (RingBuffer.wcommit (⟨1, 3, [1, 2, 3, 0]⟩ : RingBuffer Nat) 1) = 1 ∧
    RingBuffer.continuousAvailable (⟨1, 3, [1, 2, 3, 0]⟩ : RingBuffer Nat) +
      RingBuffer.continuousAvailable
        (RingBuffer.wcommit (⟨1, 3, [1, 2, 3, 0]⟩ : RingBuffer Nat)
          (RingBuffer.continuousAvailable (⟨1, 3, [1, 2, 3, 0]⟩ : RingBuffer Nat)))
      = RingBuffer.available (⟨1, 3, [1, 2, 3, 0]⟩ : RingBuffer Nat) :=
  ⟨sample_split_reachable, by decide, by decide, by decide, by decide,
    (two_rounds _ _ sample_split_reachable (by decide)).1⟩

/-! ## Progress and bounds (C19, C20) -/

/-- C19. Borrowing always makes progress. In every reachable state with capacity at least
1, `continuousAvailable() >= 1` if and only if the buffer is not full, and
`continuousSize() >= 1` if and only if the buffer is not empty. -/
theorem borrow_progress {α : Type} [Inhabited α] (rb : RingBuffer α) (q : List α)
    (h : Reachable rb q) (hcap : 1 ≤ rb.buf_.length) :
    (1 ≤ rb.continuousAvailable ↔ rb.full = false) ∧
    (1 ≤ rb.continuousSize ↔ rb.empty = false) := by
  rcases h.cases with h0 | ⟨k, hk⟩
  · rw [h0.hbuf] at hcap
    simp at hcap
  · have hq := hk.hq
    have hrlt : rb.rindex_ % 2 ^ k < 2 ^ k := Nat.mod_lt _ (Nat.two_pow_pos k)
    have hwlt : rb.windex_ % 2 ^ k < 2 ^ k := Nat.mod_lt _ (Nat.two_pow_pos k)
    rw [hk.continuousAvailable_eq, hk.continuousSize_eq, hk.full_eq, hk.empty_eq]
    simp only [decide_eq_false_iff_not]
    constructor <;> omega

theorem borrow_progress_witness :
    Reachable (⟨2, 4, [1, 2, 3, 4]⟩ : RingBuffer Nat) [3, 4] ∧
    1 ≤ [1, 2, 3, 4].length ∧
    RingBuffer.continuousAvailable (⟨2, 4, [1, 2, 3, 4]⟩ : RingBuffer Nat) = 2 ∧
    RingBuffer.full (⟨2, 4, [1, 2, 3, 4]⟩ : RingBuffer Nat) = false ∧
    ((1 ≤ RingBuffer.continuousAvailable (⟨2, 4, [1, 2, 3, 4]⟩ : RingBuffer Nat) ↔
        RingBuffer.full (⟨2, 4, [1, 2, 3, 4]⟩ : RingBuffer Nat) = false) ∧
     (1 ≤ RingBuffer.continuousSize (⟨2, 4, [1, 2, 3, 4]⟩ : RingBuffer Nat) ↔
        RingBuffer.empty (⟨2, 4, [1, 2, 3, 4]⟩ : RingBuffer Nat) = false)) :=
  ⟨sample_reachable, by decide, by decide, rfl,
    borrow_progress _ _ sample_reachable (by decide)⟩

/-- C20. Storage accesses stay in bounds. In every reachable state with capacity at least
1 (a power of two), `mask(i) == i mod capacity < capacity` for every 32-bit index `i`.
Hence every call returns without an out-of-range access: `push` when not full, `pop` when
not empty, `peek` when not empty (for every index), and `write` and `read` for every `n`
(the caller array holding `n` elements whenever the call gets past its guard), which
return either false or true. -/
theorem accesses_in_bounds {α : Type} [Inhabited α] (rb : RingBuffer α) (q : List α)
    (h : Reachable rb q) (hcap : 1 ≤ rb.buf_.length) :
    (∃ k, rb.buf_.length = 2 ^ k) ∧
    (∀ i, i < UINT_SPAN → rb.mask i = i % rb.buf_.length ∧ rb.mask i < rb.buf_.length) ∧
    (∀ v, rb.full = false → ∃ rb1, rb.push v = .ok rb1) ∧
    (rb.empty = false → ∃ x rb1, rb.pop = .ok (x, rb1)) ∧
    (∀ idx, rb.empty = false → ∃ x, rb.peek idx = .ok x) ∧
    (∀ buf n, (n ≤ rb.available → n ≤ buf.length) →
      ∃ b rb1, rb.write buf n = .ok (b, rb1)) ∧
    (∀ out n, (n ≤ rb.size → n ≤ out.length) →
      ∃ b out1 rb1, rb.read out n = .ok (b, out1, rb1)) := by
  rcases h.cases with h0 | ⟨k, hk⟩
  · rw [h0.hbuf] at hcap
    simp at hcap
  · have hq := hk.hq
    refine ⟨⟨k, hk.hlen⟩, ?_, ?_, ?_, ?_, ?_, ?_⟩
    · intro i _
      have hm := RingBuffer.mask_eq_mod rb hk.hk hk.hlen i
      exact ⟨by rw [hm, hk.hlen], RingBuffer.mask_lt rb hk.hk hk.hlen i⟩
    · intro v hf
      rw [hk.full_eq] at hf
      simp only [decide_eq_false_iff_not] at hf
      exact ⟨_, hk.push_ok (by omega) v⟩
    · intro he
      cases q with
      | nil =>
        rw [hk.empty_eq] at he
        simp at he
      | cons x q1 => exact ⟨x, _, hk.pop_ok x q1 rfl⟩
    · intro idx he
      have hlt := RingBuffer.mask_lt rb hk.hk hk.hlen idx
      exact ⟨rb.buf_[rb.mask idx], by
        simp [RingBuffer.peek, he, List.getElem?_eq_getElem hlt]⟩
    · intro buf n hb
      by_cases hn : rb.available < n
      · exact ⟨false, rb, by simp [RingBuffer.write, hn]⟩
      · obtain ⟨rb1, hw, _⟩ := hk.write_ok (Nat.le_of_not_lt hn) (hb (Nat.le_of_not_lt hn))
        exact ⟨true, rb1, hw⟩
    · intro out n ho
      by_cases hn : rb.size < n
      · exact ⟨false, out, rb, by simp [RingBuffer.read, hn]⟩
      · exact ⟨true, _, _, hk.read_ok (Nat.le_of_not_lt hn) (ho (Nat.le_of_not_lt hn))⟩

theorem accesses_in_bounds_witness :
    Reachable (⟨2, 4, [1, 2, 3, 4]⟩ : RingBuffer Nat) [3, 4] ∧
    1 ≤ [1, 2, 3, 4].length ∧
    RingBuffer.mask (⟨2, 4, [1, 2, 3, 4]⟩ : RingBuffer Nat) 4294967295 = 3 ∧
    (∀ i, i < UINT_SPAN →
      RingBuffer.mask (⟨2, 4, [1, 2, 3, 4]⟩ : RingBuffer Nat) i = i % [1, 2, 3, 4].length ∧
      RingBuffer.mask (⟨2, 4, [1, 2, 3, 4]⟩ : RingBuffer Nat) i < [1, 2, 3, 4].length) :=
  ⟨sample_reachable, by decide, by decide,
    (accesses_in_bounds _ _ sample_reachable (by decide)).2.1⟩
